import Mathlib

/-!
Verification of the jsmn-bindings crate (Rust wrapper around the jsmn C JSON
tokenizer).

The repository sources model two layers:
* the Rust wrapper in src/src/lib.rs (types JsmnType, JsmnErr, JsmnTok,
  JsmnParser, the constructors JsmnTok.new, JsmnTok.default, JsmnParser.new,
  and the function jsmn_parse that maps the C sentinel results into a Result),
* the C tokenizer engine (jsmn.c / jsmn.h), which is vendored as a git
  submodule and is not present under src/.  Its behaviour is therefore
  modelled from the specification, section 4.1 of spec.md, which describes the
  single pass scanning loop, the token allocation, the string and primitive
  sub-scanners, the superior/parent bookkeeping and the three error sentinels.

Machine integers are modelled as Nat (the unsigned position and token count)
and Int (the token fields and the superior index, which use -1 as a sentinel).
Buffers are lists of byte values.  Token arrays are lists of token records of
fixed length; the capacity of the array is its length.
-/

/-- The JSON object type, as declared in the Rust wrapper. -/
inductive JsmnType where
  | JsmnUndefined
  | JsmnObject
  | JsmnArray
  | JsmnString
  | JsmnPrimitive
deriving DecidableEq, Repr, BEq

/-- Error type from jsmn_parse, as declared in the Rust wrapper. -/
inductive JsmnErr where
  | JsmErrorNoMem
  | JsmErrorInval
  | JsmErrorPart
deriving DecidableEq, Repr, BEq

/-- A JSON token record.  The parent field is present when the parent-links
configuration is enabled; the model always tracks it, and comparisons that
correspond to a build without parent links ignore the field. -/
structure JsmnTok where
  typ : JsmnType
  start : Int
  «end» : Int
  size : Int
  parent : Int
deriving DecidableEq, Repr

/-- JsmnTok::new from the Rust wrapper: all fields zero, and with the
parent-links configuration the parent field is zero as well. -/
def JsmnTok.new : JsmnTok :=
  { typ := .JsmnUndefined, start := 0, «end» := 0, size := 0, parent := 0 }

/-- JsmnTok::default from the Rust wrapper: all fields default (zero for the
integers, JsmnUndefined for the type), except that with the parent-links
configuration the parent field is -1. -/
def JsmnTok.default : JsmnTok :=
  { typ := .JsmnUndefined, start := 0, «end» := 0, size := 0, parent := -1 }

/-- Equality of two token records under a given build configuration: the
parent field only exists, and is only compared, when the parent-links
configuration is enabled. -/
def JsmnTok.eqUnderConfig (parentLinks : Bool) (a b : JsmnTok) : Bool :=
  a.typ == b.typ && a.start == b.start && a.«end» == b.«end» && a.size == b.size
    && (!parentLinks || a.parent == b.parent)

/-- The parser state, as declared in the Rust wrapper. -/
structure JsmnParser where
  pos : Nat
  toknext : Nat
  toksuper : Int
deriving DecidableEq, Repr

/-- Modelled from the spec: jsmn_init (part of the vendored C engine, not
present under src/) resets the state to position 0, next-token-index 0 and
current-superior-token-index -1. -/
def jsmn_init (p : JsmnParser) : JsmnParser :=
  { p with pos := 0, toknext := 0, toksuper := -1 }

/-- JsmnParser::new from the Rust wrapper: the struct literal sets pos, toknext
and toksuper to 0, and then jsmn_init is run on the freshly created value. -/
def JsmnParser.new : JsmnParser :=
  jsmn_init { pos := 0, toknext := 0, toksuper := 0 }

/-- Modelled from the spec: token allocation in the engine.  If there is a
free slot, the next slot is claimed, its start and end offsets are reset to
the -1 sentinel, its size to 0, and (with parent links) its parent to -1; the
slot type is untouched at allocation time.  Returns the updated state, the
updated array and the claimed index, or nothing when capacity is exhausted. -/
def jsmn_alloc_token (p : JsmnParser) (T : List JsmnTok) :
    Option (JsmnParser × List JsmnTok × Nat) :=
  if p.toknext < T.length then
    some ({ p with toknext := p.toknext + 1 },
          T.set p.toknext
            { T.getD p.toknext JsmnTok.new with
              start := -1, «end» := -1, size := 0, parent := -1 },
          p.toknext)
  else none

/-- Modelled from the spec: filling a token record with its type and its byte
span, and resetting its size; the parent field is left as is. -/
def jsmn_fill_token (T : List JsmnTok) (idx : Nat) (typ : JsmnType)
    (s e : Int) : List JsmnTok :=
  T.set idx { T.getD idx JsmnTok.new with typ := typ, start := s, «end» := e, size := 0 }

/-- Setting the parent link of a token record. -/
def setTokParent (T : List JsmnTok) (idx : Nat) (par : Int) : List JsmnTok :=
  T.set idx { T.getD idx JsmnTok.new with parent := par }

/-- Incrementing the size of a token record (one more immediate child). -/
def bumpTokSize (T : List JsmnTok) (idx : Nat) : List JsmnTok :=
  T.set idx { T.getD idx JsmnTok.new with size := (T.getD idx JsmnTok.new).size + 1 }

/-- Modelled from the spec: the terminator bytes of a primitive in the lenient
configuration: tab, carriage return, line feed, space, comma, closing bracket,
closing brace and the double quote. -/
def isPrimTerminator (c : Nat) : Bool :=
  c == 9 || c == 13 || c == 10 || c == 32 || c == 44 || c == 93 || c == 125 || c == 34

/-- The outcome of scanning for the end of a primitive. -/
inductive PrimScanR where
  | found (pos : Nat)
  | inval
deriving DecidableEq, Repr

/-- The iteration of primScan.  The first argument is fuel that bounds the
number of iterations; every iteration advances the position by one, so fuel
len - pos is exact: the fuel can only run out once the position has reached
the end of the buffer, where the loop stops anyway. -/
def primScanGo (js : List Nat) (len : Nat) : Nat → Nat → PrimScanR
  | 0, pos => .found pos
  | d + 1, pos =>
    if pos < len ∧ js.getD pos 0 ≠ 0 then
      let c := js.getD pos 0
      if isPrimTerminator c then .found pos
      else if c < 32 ∨ 127 ≤ c then .inval
      else primScanGo js len d (pos + 1)
    else .found pos

/-- Modelled from the spec: scanning a primitive from a given offset: advance
until a terminator byte is met (that offset is one past the primitive), fail
on a byte that is not printable (below 32 or at least 127), and treat the end
of the buffer, or a NUL byte, as closing the primitive (documented leniency). -/
def primScan (js : List Nat) (len : Nat) (pos : Nat) : PrimScanR :=
  primScanGo js len (len - pos) pos

/-- Modelled from the spec: parsing one primitive.  On success a Primitive
token spanning the consumed range is allocated, its parent link set to the
current superior, and the position is left one before the terminator (the main
loop then advances past it).  On a non-printable byte the position is reset to
the start of the primitive and the invalid-character sentinel -2 is returned;
on capacity exhaustion the position is reset and -1 is returned. -/
def jsmn_parse_primitive (p : JsmnParser) (js : List Nat) (len : Nat)
    (T : List JsmnTok) : JsmnParser × List JsmnTok × Int :=
  match primScan js len p.pos with
  | .inval => ({ p with pos := p.pos }, T, -2)
  | .found e =>
    match jsmn_alloc_token p T with
    | none => ({ p with pos := p.pos }, T, -1)
    | some (p1, T1, idx) =>
      (({ p1 with pos := e - 1 },
        setTokParent (jsmn_fill_token T1 idx .JsmnPrimitive (p.pos : Int) (e : Int)) idx p.toksuper,
        0))

/-- A byte is a hexadecimal digit (0-9, A-F, a-f). -/
def isHexDigit (c : Nat) : Bool :=
  (48 ≤ c && c ≤ 57) || (65 ≤ c && c ≤ 70) || (97 ≤ c && c ≤ 102)

/-- Modelled from the spec: the four-hex-digit scan of a backslash-u escape.
Up to four bytes are consumed while they are hex digits; a byte that is not a
hex digit fails with the invalid-character error (returned as none); hitting
the end of the buffer, or a NUL byte, stops the scan early.  Returns the
offset one past the consumed digits. -/
def hexLoop (js : List Nat) (len : Nat) : Nat → Nat → Option Nat
  | pos, 0 => some pos
  | pos, k + 1 =>
    if pos < len ∧ js.getD pos 0 ≠ 0 then
      if isHexDigit (js.getD pos 0) then hexLoop js len (pos + 1) k else none
    else some pos

/-- The hex scan never moves the position backwards. -/
theorem hexLoop_ge (js : List Nat) (len : Nat) :
    ∀ k pos q, hexLoop js len pos k = some q → pos ≤ q := by
  intro k
  induction k with
  | zero =>
    intro pos q h
    simp only [hexLoop, Option.some.injEq] at h
    omega
  | succ k ih =>
    intro pos q h
    simp only [hexLoop] at h
    split at h
    · split at h
      · have := ih (pos + 1) q h
        omega
      · exact absurd h (by simp)
    · simp at h
      omega

/-- The simple one-character escapes: quote, slash, backslash, b, f, r, n, t. -/
def isSimpleEscape (c : Nat) : Bool :=
  c == 34 || c == 47 || c == 92 || c == 98 || c == 102 || c == 114 || c == 110 || c == 116

/-- The outcome of scanning for the closing quote of a string. -/
inductive StrScanR where
  | found (q : Nat)
  | inval
  | part
deriving DecidableEq, Repr

/-- The iteration of strScanQ.  The first argument is fuel that bounds the
number of iterations; every iteration advances the position by at least one,
so fuel len - pos is exact: the fuel can only run out once the position has
reached the end of the buffer, where the scan reports incomplete anyway. -/
def strScanGo (js : List Nat) (len : Nat) : Nat → Nat → StrScanR
  | 0, _ => .part
  | d + 1, pos =>
    if pos < len ∧ js.getD pos 0 ≠ 0 then
      let c := js.getD pos 0
      if c = 34 then .found pos
      else if c = 92 ∧ pos + 1 < len then
        let e := js.getD (pos + 1) 0
        if isSimpleEscape e then strScanGo js len d (pos + 2)
        else if e = 117 then
          match hexLoop js len (pos + 2) 4 with
          | none => .inval
          | some q => strScanGo js len d q
        else .inval
      else strScanGo js len d (pos + 1)
    else .part

/-- Modelled from the spec: the pure scan for the closing quote of a string,
starting one past the opening quote.  Simple escapes skip one byte, a
backslash-u escape consumes up to four hex digits (a non-hex digit fails with
invalid-character), an unknown escape fails with invalid-character, and the
end of the buffer (also in the middle of an escape) yields the incomplete
outcome. -/
def strScanQ (js : List Nat) (len : Nat) (pos : Nat) : StrScanR :=
  strScanGo js len (len - pos) pos

/-- Modelled from the spec: committing a scanned string: allocate a token for
the content between the quotes (excluding them) and set its parent link to the
current superior.  On capacity exhaustion the position is reset to the opening
quote and -1 is returned; on success the position is left at the closing
quote. -/
def strCommit (p : JsmnParser) (T : List JsmnTok) (start q : Nat) :
    JsmnParser × List JsmnTok × Int :=
  match jsmn_alloc_token p T with
  | none => ({ p with pos := start }, T, -1)
  | some (p1, T1, idx) =>
    ({ p1 with pos := q },
     setTokParent (jsmn_fill_token T1 idx .JsmnString ((start : Int) + 1) (q : Int)) idx p.toksuper,
     0)

/-- Modelled from the spec: parsing one string, entered with the position at
the opening quote.  The scan looks for the closing quote; an invalid escape
resets the position and returns -2, a buffer that ends inside the string
resets the position and returns -3, and on success the string token is
committed. -/
def jsmn_parse_string (p : JsmnParser) (js : List Nat) (len : Nat)
    (T : List JsmnTok) : JsmnParser × List JsmnTok × Int :=
  match strScanQ js len (p.pos + 1) with
  | .part => ({ p with pos := p.pos }, T, -3)
  | .inval => ({ p with pos := p.pos }, T, -2)
  | .found q => strCommit p T p.pos q

/-- Modelled from the spec: closing an object or array.  Starting from the
most recently allocated token, the walk follows the parent links upward until
it finds a token that is open (start set, end not yet set); that token must be
of the matching type, its end offset is set one past the closing byte, and the
superior becomes its parent.  A closed root with no matching open container is
an error unless a superior exists and the types match, in which case nothing
changes.  The walk is bounded by the fuel argument; exhausting it models the
walk not terminating on corrupted parent links.  Returns: none when fuel runs
out, some none for the invalid-character error, some (some (array, superior))
otherwise. -/
def closeWalk (T : List JsmnTok) (typ : JsmnType) (endPos : Int) (sup : Int) :
    Nat → Nat → Option (Option (List JsmnTok × Int))
  | 0, _ => none
  | fuel + 1, i =>
    if (T.getD i JsmnTok.new).start ≠ -1 ∧ (T.getD i JsmnTok.new).«end» = -1 then
      if (T.getD i JsmnTok.new).typ ≠ typ then some none
      else some (some (T.set i { T.getD i JsmnTok.new with «end» := endPos },
                       (T.getD i JsmnTok.new).parent))
    else if (T.getD i JsmnTok.new).parent = -1 then
      if (T.getD i JsmnTok.new).typ ≠ typ ∨ sup = -1 then some none
      else some (some (T, sup))
    else closeWalk T typ endPos sup fuel (T.getD i JsmnTok.new).parent.toNat

/-- The outcome of one iteration of the main scanning loop. -/
inductive StepOut where
  | next (p : JsmnParser) (T : List JsmnTok) (count : Nat)
  | ret (p : JsmnParser) (T : List JsmnTok) (r : Int)
  | diverge
deriving DecidableEq, Repr

/-- Writing the type and the start offset of a freshly allocated container
token (its end offset stays at the -1 sentinel from allocation). -/
def setTokTypeStart (T : List JsmnTok) (idx : Nat) (typ : JsmnType) (s : Int) :
    List JsmnTok :=
  T.set idx { T.getD idx JsmnTok.new with typ := typ, start := s }

/-- Modelled from the spec: the opening brace or bracket case of the main
loop.  A container token is allocated; if a superior exists its size is
incremented and the new token gets it as parent; the token type and start are
written and the new token becomes the superior. -/
def jsmnStepOpen (c : Nat) (p : JsmnParser) (T : List JsmnTok) (count : Nat) :
    StepOut :=
  match jsmn_alloc_token p T with
  | none => .ret p T (-1)
  | some (p1, T1, idx) =>
    if p1.toksuper = -1 then
      .next { p1 with toksuper := (p1.toknext : Int) - 1, pos := p.pos + 1 }
        (setTokTypeStart T1 idx (if c = 123 then .JsmnObject else .JsmnArray) (p.pos : Int))
        (count + 1)
    else
      .next { p1 with toksuper := (p1.toknext : Int) - 1, pos := p.pos + 1 }
        (setTokTypeStart (setTokParent (bumpTokSize T1 p1.toksuper.toNat) idx p1.toksuper)
          idx (if c = 123 then .JsmnObject else .JsmnArray) (p.pos : Int))
        (count + 1)

/-- Modelled from the spec: the closing brace or bracket case of the main
loop: run the close walk from the most recently allocated token. -/
def jsmnStepClose (c : Nat) (p : JsmnParser) (T : List JsmnTok) (count : Nat) :
    StepOut :=
  if p.toknext < 1 then .ret p T (-2)
  else
    match closeWalk T (if c = 125 then .JsmnObject else .JsmnArray)
        ((p.pos : Int) + 1) p.toksuper p.toknext (p.toknext - 1) with
    | none => .diverge
    | some none => .ret p T (-2)
    | some (some (T', sup')) => .next { p with toksuper := sup', pos := p.pos + 1 } T' count

/-- Modelled from the spec: the quote case of the main loop: parse the string
and, on success, credit the superior with one more immediate child. -/
def jsmnStepString (js : List Nat) (len : Nat) (p : JsmnParser)
    (T : List JsmnTok) (count : Nat) : StepOut :=
  match jsmn_parse_string p js len T with
  | (p1, T1, r) =>
    if r < 0 then .ret p1 T1 r
    else if p1.toksuper ≠ -1 then
      .next { p1 with pos := p1.pos + 1 } (bumpTokSize T1 p1.toksuper.toNat) (count + 1)
    else .next { p1 with pos := p1.pos + 1 } T1 (count + 1)

/-- Modelled from the spec: the comma case of the main loop: when the superior
exists but is not a container (it is a string key), pop the superior to its
parent. -/
def jsmnStepComma (p : JsmnParser) (T : List JsmnTok) (count : Nat) : StepOut :=
  if p.toksuper ≠ -1 ∧ (T.getD p.toksuper.toNat JsmnTok.new).typ ≠ .JsmnArray ∧
      (T.getD p.toksuper.toNat JsmnTok.new).typ ≠ .JsmnObject then
    .next { p with toksuper := (T.getD p.toksuper.toNat JsmnTok.new).parent, pos := p.pos + 1 }
      T count
  else .next { p with pos := p.pos + 1 } T count

/-- Modelled from the spec: the default case of the main loop: parse a
primitive and, on success, credit the superior with one more immediate
child. -/
def jsmnStepPrim (js : List Nat) (len : Nat) (p : JsmnParser)
    (T : List JsmnTok) (count : Nat) : StepOut :=
  match jsmn_parse_primitive p js len T with
  | (p1, T1, r) =>
    if r < 0 then .ret p1 T1 r
    else if p1.toksuper ≠ -1 then
      .next { p1 with pos := p1.pos + 1 } (bumpTokSize T1 p1.toksuper.toNat) (count + 1)
    else .next { p1 with pos := p1.pos + 1 } T1 (count + 1)

/-- Modelled from the spec: one iteration of the main scanning loop, at a
position that is inside the buffer and not at a NUL byte.  Dispatches on the
byte: opening braces and brackets allocate a container token, link it below
the superior and make it the new superior; closing braces and brackets run the
close walk; a quote runs the string parser; whitespace is skipped; a colon
makes the most recent token the superior; a comma outside a container pops the
superior to its parent; everything else is a primitive.  An error from a
sub-parser is returned as is; otherwise the iteration advances past the
consumed bytes. -/
def jsmnStep (js : List Nat) (len : Nat) (p : JsmnParser) (T : List JsmnTok)
    (count : Nat) : StepOut :=
  if js.getD p.pos 0 = 123 ∨ js.getD p.pos 0 = 91 then
    jsmnStepOpen (js.getD p.pos 0) p T count
  else if js.getD p.pos 0 = 125 ∨ js.getD p.pos 0 = 93 then
    jsmnStepClose (js.getD p.pos 0) p T count
  else if js.getD p.pos 0 = 34 then
    jsmnStepString js len p T count
  else if js.getD p.pos 0 = 9 ∨ js.getD p.pos 0 = 13 ∨ js.getD p.pos 0 = 10 ∨
      js.getD p.pos 0 = 32 then
    .next { p with pos := p.pos + 1 } T count
  else if js.getD p.pos 0 = 58 then
    .next { p with toksuper := (p.toknext : Int) - 1, pos := p.pos + 1 } T count
  else if js.getD p.pos 0 = 44 then
    jsmnStepComma p T count
  else
    jsmnStepPrim js len p T count

/-- Whether a committed token below the given index is still open (start set,
end not yet set): the end-of-buffer check of the engine. -/
def hasOpenTok (T : List JsmnTok) (k : Nat) : Bool :=
  (List.range k).any fun i =>
    (T.getD i JsmnTok.new).start != -1 && (T.getD i JsmnTok.new).«end» == -1

/-- Modelled from the spec: the main scanning loop.  While the position is
inside the buffer and not at a NUL byte, one iteration runs; at the end of the
buffer, an open committed token yields the incomplete sentinel -3, otherwise
the count of tokens is returned.  The fuel argument bounds the number of
iterations; none models a run that does not terminate. -/
def parseLoopF (js : List Nat) (len : Nat) :
    Nat → JsmnParser → List JsmnTok → Nat → Option (JsmnParser × List JsmnTok × Int)
  | 0, _, _, _ => none
  | fuel + 1, p, T, count =>
    if p.pos < len ∧ js.getD p.pos 0 ≠ 0 then
      match jsmnStep js len p T count with
      | .next p' T' c' => parseLoopF js len fuel p' T' c'
      | .ret p' T' r => some (p', T', r)
      | .diverge => none
    else
      if hasOpenTok T p.toknext then some (p, T, -3) else some (p, T, (count : Int))

/-- Modelled from the spec: the C engine entry point.  The scan starts from
the persisted position with the count seeded from the persisted
next-token-index, and runs the main loop.  Each loop iteration consumes at
least one byte, so a fuel of one more than the buffer length is always enough;
none models a run that does not terminate. -/
def jsmn_parse_c (p : JsmnParser) (js : List Nat) (T : List JsmnTok) :
    Option (JsmnParser × List JsmnTok × Int) :=
  parseLoopF js js.length (js.length + 1) p T p.toknext

/-- The sentinel translation done by the Rust wrapper jsmn_parse: a negative
result is matched against -1, -2 and -3; any other negative value falls into
the unreachable branch, modelled as none. -/
def wrapperMap (r : Int) : Option (Except JsmnErr Nat) :=
  if r < 0 then
    if r = -1 then some (.error .JsmErrorNoMem)
    else if r = -2 then some (.error .JsmErrorInval)
    else if r = -3 then some (.error .JsmErrorPart)
    else none
  else some (.ok r.toNat)

/-- The Rust wrapper jsmn_parse from src/src/lib.rs: it runs the raw engine on
the byte buffer and the token slice and translates the sentinel result.  The
outer none covers both a run of the engine that does not terminate and the
unreachable branch of the wrapper. -/
def jsmn_parse (p : JsmnParser) (js : List Nat) (T : List JsmnTok) :
    Option (JsmnParser × List JsmnTok × Except JsmnErr Nat) :=
  match jsmn_parse_c p js T with
  | none => none
  | some (p', T', r) =>
    match wrapperMap r with
    | none => none
    | some res => some (p', T', res)

deriving instance DecidableEq for Except

/-! ### Concrete runs used by the explicit claims -/

/-- Claim C1: the four boundary documents produce exactly the token records
stated by the specification.  The buffers are the byte strings of the JSON
texts, written as byte values: 123 and 125 are the braces, 91 and 93 the
brackets, 44 the comma, 34 the double quote, 58 the colon, 97 the letter a and
48 the digit 0.  The parent fields are the ones of the parent-links
configuration; the runs also return the final parser state. -/
theorem C1_boundary_documents :
    jsmn_parse JsmnParser.new [123, 125] (List.replicate 1 JsmnTok.default) =
      some ({ pos := 2, toknext := 1, toksuper := -1 },
        [{ typ := .JsmnObject, start := 0, «end» := 2, size := 0, parent := -1 }],
        .ok 1) ∧
    jsmn_parse JsmnParser.new [91, 93] (List.replicate 1 JsmnTok.default) =
      some ({ pos := 2, toknext := 1, toksuper := -1 },
        [{ typ := .JsmnArray, start := 0, «end» := 2, size := 0, parent := -1 }],
        .ok 1) ∧
    jsmn_parse JsmnParser.new [91, 123, 125, 44, 123, 125, 93] (List.replicate 3 JsmnTok.default) =
      some ({ pos := 7, toknext := 3, toksuper := -1 },
        [{ typ := .JsmnArray, start := 0, «end» := 7, size := 2, parent := -1 },
         { typ := .JsmnObject, start := 1, «end» := 3, size := 0, parent := 0 },
         { typ := .JsmnObject, start := 4, «end» := 6, size := 0, parent := 0 }],
        .ok 3) ∧
    jsmn_parse JsmnParser.new [123, 34, 97, 34, 58, 48, 125] (List.replicate 3 JsmnTok.default) =
      some ({ pos := 7, toknext := 3, toksuper := -1 },
        [{ typ := .JsmnObject, start := 0, «end» := 7, size := 1, parent := -1 },
         { typ := .JsmnString, start := 2, «end» := 3, size := 1, parent := 0 },
         { typ := .JsmnPrimitive, start := 5, «end» := 6, size := 0, parent := 1 }],
        .ok 3) := by
  refine ⟨?_, ?_, ?_, ?_⟩ <;> decide

/-- Claim C5: the two documents with a backslash-u escape whose four following
characters are not all hex digits fail with the invalid-character error.  The
first buffer is the byte string of the JSON text with escape uFFGF, the second
the one with escape followed by the at sign. -/
theorem C5_invalid_unicode_escape :
    jsmn_parse JsmnParser.new
      [123, 34, 97, 34, 58, 34, 115, 116, 114, 92, 117, 70, 70, 71, 70, 115, 116, 114, 34, 125]
      (List.replicate 3 JsmnTok.default) =
      some ({ pos := 5, toknext := 2, toksuper := 1 },
        [{ typ := .JsmnObject, start := 0, «end» := -1, size := 1, parent := -1 },
         { typ := .JsmnString, start := 2, «end» := 3, size := 0, parent := 0 },
         JsmnTok.default],
        .error .JsmErrorInval) ∧
    jsmn_parse JsmnParser.new
      [123, 34, 97, 34, 58, 34, 115, 116, 114, 92, 117, 64, 70, 102, 70, 34, 125]
      (List.replicate 3 JsmnTok.default) =
      some ({ pos := 5, toknext := 2, toksuper := 1 },
        [{ typ := .JsmnObject, start := 0, «end» := -1, size := 1, parent := -1 },
         { typ := .JsmnString, start := 2, «end» := 3, size := 0, parent := 0 },
         JsmnTok.default],
        .error .JsmErrorInval) := by
  exact ⟨by decide, by decide⟩

/-- Claim C9: JsmnParser::new returns the freshly initialized state: position
0, next-token-index 0, and the none sentinel -1 as superior index. -/
theorem C9_parser_new :
    JsmnParser.new = { pos := 0, toknext := 0, toksuper := -1 } := by
  decide

/-- Claim C10: with the parent-links configuration the two constructors
disagree, JsmnTok::new sets parent 0 and JsmnTok::default sets parent -1, and
the records they produce are equal exactly when parent links are disabled. -/
theorem C10_new_vs_default :
    JsmnTok.new.parent = 0 ∧ JsmnTok.default.parent = -1 ∧
    JsmnTok.eqUnderConfig true JsmnTok.new JsmnTok.default = false ∧
    JsmnTok.eqUnderConfig false JsmnTok.new JsmnTok.default = true ∧
    JsmnTok.new ≠ JsmnTok.default := by
  decide

/-- Claim C2, counterexample: the second call of the grow-and-retry protocol
must be given an array that still holds the committed tokens.  For the
document with bytes of the JSON text with an array of two empty objects and a
first capacity of 2, the first call stops with the no-memory error after
committing two tokens; re-invoking with the persisted state but a fresh
default-initialized array of capacity 3 fails with the invalid-character
error instead of completing with Ok 3, because the close walk reads the
committed slots, which the fresh array does not contain. -/
theorem C2_fresh_array_resume_fails :
    jsmn_parse JsmnParser.new [91, 123, 125, 44, 123, 125, 93] (List.replicate 2 JsmnTok.default) =
      some ({ pos := 4, toknext := 2, toksuper := 0 },
        [{ typ := .JsmnArray, start := 0, «end» := -1, size := 1, parent := -1 },
         { typ := .JsmnObject, start := 1, «end» := 3, size := 0, parent := 0 }],
        .error .JsmErrorNoMem) ∧
    jsmn_parse { pos := 4, toknext := 2, toksuper := 0 } [91, 123, 125, 44, 123, 125, 93]
        (List.replicate 3 JsmnTok.default) =
      some ({ pos := 6, toknext := 3, toksuper := 0 },
        [{ typ := .JsmnUndefined, start := 0, «end» := 0, size := 1, parent := -1 },
         JsmnTok.default,
         { typ := .JsmnObject, start := 4, «end» := 6, size := 0, parent := 0 }],
        .error .JsmErrorInval) := by
  exact ⟨by decide, by decide⟩

/-- Claim C3, counterexample: a resumed call that makes progress does modify
committed slots.  On the document with bytes of the JSON text with an array of
the two primitives 0 and 1, a first call of capacity 1 commits the array token
with size 0 and stops with the no-memory error; resuming with the committed
slot carried over into a capacity 2 array commits the first primitive and
increments the size of the committed array token from 0 to 1 before running
out of memory again, so the committed slot is not byte-for-byte unchanged. -/
theorem C3_resumed_call_updates_committed_slot :
    jsmn_parse JsmnParser.new [91, 48, 44, 49, 93] (List.replicate 1 JsmnTok.default) =
      some ({ pos := 1, toknext := 1, toksuper := 0 },
        [{ typ := .JsmnArray, start := 0, «end» := -1, size := 0, parent := -1 }],
        .error .JsmErrorNoMem) ∧
    jsmn_parse { pos := 1, toknext := 1, toksuper := 0 } [91, 48, 44, 49, 93]
        [{ typ := .JsmnArray, start := 0, «end» := -1, size := 0, parent := -1 }, JsmnTok.default] =
      some ({ pos := 3, toknext := 2, toksuper := 0 },
        [{ typ := .JsmnArray, start := 0, «end» := -1, size := 1, parent := -1 },
         { typ := .JsmnPrimitive, start := 1, «end» := 2, size := 0, parent := 0 }],
        .error .JsmErrorNoMem) := by
  exact ⟨by decide, by decide⟩

/-- Claim C6, counterexample: a buffer that ends while an array is still open
can nevertheless fail with the invalid-character error when the open part
contains a syntax violation.  The buffer of an opening bracket followed by the
byte 1 (a control character, not printable) ends with the array unclosed, yet
the call reports invalid-character, not incomplete. -/
theorem C6_open_container_with_bad_byte_is_inval :
    jsmn_parse JsmnParser.new [91, 1] (List.replicate 5 JsmnTok.default) =
      some ({ pos := 1, toknext := 1, toksuper := 0 },
        { typ := .JsmnArray, start := 0, «end» := -1, size := 0, parent := -1 } ::
          List.replicate 4 JsmnTok.default,
        .error .JsmErrorInval) := by
  decide

/-- Claim C8, counterexample: a call with a zero-length token slice is not a
count-only mode.  On the empty-object document the call with the empty slice
returns the no-memory error, not Ok 1: the wrapper always passes a real array
whose capacity is the slice length, so the first allocation fails. -/
theorem C8_empty_slice_is_not_count_only :
    jsmn_parse JsmnParser.new [123, 125] ([] : List JsmnTok) =
      some ({ pos := 0, toknext := 0, toksuper := -1 }, [], .error .JsmErrorNoMem) := by
  decide

/-! ### Helper lemmas about list reads and writes -/

theorem getD_set_self {α : Type} (T : List α) (i : Nat) (a d : α) (h : i < T.length) :
    (T.set i a).getD i d = a := by
  simp [List.getD_eq_getD_get?, List.get?_set_of_lt _ _ h, h]

theorem getD_set_ne {α : Type} (T : List α) {i j : Nat} (a d : α) (h : i ≠ j) :
    (T.set i a).getD j d = T.getD j d := by
  simp [List.getD_eq_getD_get?, List.getElem?_set, h]

/-- Agreement of two token arrays on all slots below an index. -/
def agreeBelow (k : Nat) (T U : List JsmnTok) : Prop :=
  ∀ i, i < k → T.getD i JsmnTok.new = U.getD i JsmnTok.new

theorem agreeBelow_refl (k : Nat) (T : List JsmnTok) : agreeBelow k T T :=
  fun _ _ => rfl

theorem agreeBelow_trans {k : Nat} {T U V : List JsmnTok}
    (h1 : agreeBelow k T U) (h2 : agreeBelow k U V) : agreeBelow k T V :=
  fun i hi => (h1 i hi).trans (h2 i hi)

theorem agreeBelow_symm {k : Nat} {T U : List JsmnTok}
    (h : agreeBelow k T U) : agreeBelow k U T :=
  fun i hi => (h i hi).symm

theorem agreeBelow_mono {k k' : Nat} {T U : List JsmnTok}
    (h : agreeBelow k T U) (hk : k' ≤ k) : agreeBelow k' T U :=
  fun i hi => h i (lt_of_lt_of_le hi hk)

/-- The structural invariant of a scan in progress: the superior index is -1
or a committed slot, and every committed slot has a parent link that is -1 or
a strictly smaller committed slot. -/
def parserInv (p : JsmnParser) (T : List JsmnTok) : Prop :=
  -1 ≤ p.toksuper ∧ p.toksuper < (p.toknext : Int) ∧
  ∀ i : Nat, i < p.toknext →
    -1 ≤ (T.getD i JsmnTok.new).parent ∧ (T.getD i JsmnTok.new).parent < (i : Int)

theorem parserInv_of_agree {p : JsmnParser} {T U : List JsmnTok}
    (h : parserInv p T) (ha : agreeBelow p.toknext T U) : parserInv p U := by
  refine ⟨h.1, h.2.1, fun i hi => ?_⟩
  rw [← ha i hi]
  exact h.2.2 i hi

/-! ### Facts about the sub-parsers -/

theorem jsmn_alloc_token_none {p : JsmnParser} {T : List JsmnTok}
    (h : jsmn_alloc_token p T = none) : T.length ≤ p.toknext := by
  unfold jsmn_alloc_token at h
  split at h
  · exact absurd h (by simp)
  · omega

theorem jsmn_alloc_token_some {p : JsmnParser} {T : List JsmnTok} {p1 T1 idx}
    (h : jsmn_alloc_token p T = some (p1, T1, idx)) :
    p.toknext < T.length ∧
    p1 = { p with toknext := p.toknext + 1 } ∧
    T1 = T.set p.toknext
           { T.getD p.toknext JsmnTok.new with
             start := -1, «end» := -1, size := 0, parent := -1 } ∧
    idx = p.toknext := by
  unfold jsmn_alloc_token at h
  split at h
  · rename_i hlt
    injection h with h2
    simp only [Prod.mk.injEq] at h2
    exact ⟨hlt, h2.1.symm, h2.2.1.symm, h2.2.2.symm⟩
  · exact absurd h (by simp)

/-- On a negative result the string parser leaves the state and the array
unchanged (the position is reset to the opening quote, where it started). -/
theorem jsmn_parse_string_neg {p : JsmnParser} {js : List Nat} {len : Nat}
    {T : List JsmnTok} {p1 T1 r}
    (h : jsmn_parse_string p js len T = (p1, T1, r)) (hr : r < 0) :
    p1 = p ∧ T1 = T ∧ (r = -1 ∨ r = -2 ∨ r = -3) := by
  unfold jsmn_parse_string at h
  split at h
  · simp only [Prod.mk.injEq] at h
    exact ⟨h.1.symm, h.2.1.symm, Or.inr (Or.inr h.2.2.symm)⟩
  · simp only [Prod.mk.injEq] at h
    exact ⟨h.1.symm, h.2.1.symm, Or.inr (Or.inl h.2.2.symm)⟩
  · unfold strCommit at h
    split at h
    · simp only [Prod.mk.injEq] at h
      exact ⟨h.1.symm, h.2.1.symm, Or.inl h.2.2.symm⟩
    · simp only [Prod.mk.injEq] at h
      omega

/-- On a nonnegative result the string parser committed exactly one token:
the scan found the closing quote, allocation succeeded, and the resulting
state and array are explicit. -/
theorem jsmn_parse_string_ok {p : JsmnParser} {js : List Nat} {len : Nat}
    {T : List JsmnTok} {p1 T1 r}
    (h : jsmn_parse_string p js len T = (p1, T1, r)) (hr : 0 ≤ r) :
    r = 0 ∧ p.toknext < T.length ∧
    ∃ q, strScanQ js len (p.pos + 1) = .found q ∧
      p1 = { p with toknext := p.toknext + 1, pos := q } ∧
      T1 = setTokParent
             (jsmn_fill_token
               (T.set p.toknext
                 { T.getD p.toknext JsmnTok.new with
                   start := -1, «end» := -1, size := 0, parent := -1 })
               p.toknext .JsmnString ((p.pos : Int) + 1) (q : Int))
             p.toknext p.toksuper := by
  unfold jsmn_parse_string at h
  split at h
  · simp only [Prod.mk.injEq] at h
    omega
  · simp only [Prod.mk.injEq] at h
    omega
  · rename_i q hq
    unfold strCommit at h
    split at h
    · simp only [Prod.mk.injEq] at h
      omega
    · rename_i pa Ta ia hx
      obtain ⟨hlt, hpa, hTa, hia⟩ := jsmn_alloc_token_some hx
      subst hpa; subst hTa; subst hia
      simp only [Prod.mk.injEq] at h
      refine ⟨h.2.2.symm, hlt, q, hq, ?_, ?_⟩
      · rw [← h.1]
      · rw [← h.2.1]

/-- On a negative result the primitive parser leaves the state and the array
unchanged (the position is reset to the start of the primitive, where it
started). -/
theorem jsmn_parse_primitive_neg {p : JsmnParser} {js : List Nat} {len : Nat}
    {T : List JsmnTok} {p1 T1 r}
    (h : jsmn_parse_primitive p js len T = (p1, T1, r)) (hr : r < 0) :
    p1 = p ∧ T1 = T ∧ (r = -1 ∨ r = -2) := by
  unfold jsmn_parse_primitive at h
  split at h
  · simp only [Prod.mk.injEq] at h
    exact ⟨h.1.symm, h.2.1.symm, Or.inr h.2.2.symm⟩
  · split at h
    · simp only [Prod.mk.injEq] at h
      exact ⟨h.1.symm, h.2.1.symm, Or.inl h.2.2.symm⟩
    · simp only [Prod.mk.injEq] at h
      omega

/-- On a nonnegative result the primitive parser committed exactly one token:
the scan found the terminator, allocation succeeded, and the resulting state
and array are explicit. -/
theorem jsmn_parse_primitive_ok {p : JsmnParser} {js : List Nat} {len : Nat}
    {T : List JsmnTok} {p1 T1 r}
    (h : jsmn_parse_primitive p js len T = (p1, T1, r)) (hr : 0 ≤ r) :
    r = 0 ∧ p.toknext < T.length ∧
    ∃ e, primScan js len p.pos = .found e ∧
      p1 = { p with toknext := p.toknext + 1, pos := e - 1 } ∧
      T1 = setTokParent
             (jsmn_fill_token
               (T.set p.toknext
                 { T.getD p.toknext JsmnTok.new with
                   start := -1, «end» := -1, size := 0, parent := -1 })
               p.toknext .JsmnPrimitive (p.pos : Int) (e : Int))
             p.toknext p.toksuper := by
  unfold jsmn_parse_primitive at h
  split at h
  · simp only [Prod.mk.injEq] at h
    omega
  · rename_i e he
    split at h
    · simp only [Prod.mk.injEq] at h
      omega
    · rename_i pa Ta ia hx
      obtain ⟨hlt, hpa, hTa, hia⟩ := jsmn_alloc_token_some hx
      subst hpa; subst hTa; subst hia
      simp only [Prod.mk.injEq] at h
      refine ⟨h.2.2.symm, hlt, e, he, ?_, ?_⟩
      · rw [← h.1]
      · rw [← h.2.1]

/-! ### Facts about one iteration of the main loop -/


theorem jsmnStepOpen_ret {c : Nat} {p : JsmnParser} {T : List JsmnTok}
    {count : Nat} {p' T' r} (h : jsmnStepOpen c p T count = .ret p' T' r) :
    p' = p ∧ T' = T ∧ r = -1 ∧ T.length ≤ p.toknext := by
  unfold jsmnStepOpen at h
  split at h
  · rename_i heq
    injection h with h1 h2 h3
    exact ⟨h1.symm, h2.symm, h3.symm, jsmn_alloc_token_none heq⟩
  · split at h <;> exact absurd h (by simp)

theorem jsmnStepClose_ret {c : Nat} {p : JsmnParser} {T : List JsmnTok}
    {count : Nat} {p' T' r} (h : jsmnStepClose c p T count = .ret p' T' r) :
    p' = p ∧ T' = T ∧ r = -2 := by
  unfold jsmnStepClose at h
  split at h
  · injection h with h1 h2 h3
    exact ⟨h1.symm, h2.symm, h3.symm⟩
  · split at h
    · exact absurd h (by simp)
    · injection h with h1 h2 h3
      exact ⟨h1.symm, h2.symm, h3.symm⟩
    · exact absurd h (by simp)

theorem jsmnStepString_ret {js : List Nat} {len : Nat} {p : JsmnParser}
    {T : List JsmnTok} {count : Nat} {p' T' r}
    (h : jsmnStepString js len p T count = .ret p' T' r) :
    p' = p ∧ T' = T ∧ (r = -1 ∨ r = -2 ∨ r = -3) := by
  unfold jsmnStepString at h
  split at h
  rename_i p1 T1 r1 hstr
  split at h
  · rename_i hneg
    injection h with h1 h2 h3
    subst h1; subst h2; subst h3
    exact jsmn_parse_string_neg hstr hneg
  · split at h <;> exact absurd h (by simp)

theorem jsmnStepPrim_ret {js : List Nat} {len : Nat} {p : JsmnParser}
    {T : List JsmnTok} {count : Nat} {p' T' r}
    (h : jsmnStepPrim js len p T count = .ret p' T' r) :
    p' = p ∧ T' = T ∧ (r = -1 ∨ r = -2) := by
  unfold jsmnStepPrim at h
  split at h
  rename_i p1 T1 r1 hprim
  split at h
  · rename_i hneg
    injection h with h1 h2 h3
    subst h1; subst h2; subst h3
    exact jsmn_parse_primitive_neg hprim hneg
  · split at h <;> exact absurd h (by simp)

theorem jsmnStepComma_ret {p : JsmnParser} {T : List JsmnTok} {count : Nat}
    {p' T' r} (h : jsmnStepComma p T count = .ret p' T' r) : False := by
  unfold jsmnStepComma at h
  split at h <;> exact absurd h (by simp)

/-- Any error return of an iteration leaves the parser state and the token
array exactly as they were at the start of the iteration, and the returned
sentinel is one of -1, -2, -3. -/
theorem jsmnStep_ret_frame {js : List Nat} {len : Nat} {p : JsmnParser}
    {T : List JsmnTok} {count : Nat} {p' T' r}
    (h : jsmnStep js len p T count = .ret p' T' r) :
    p' = p ∧ T' = T ∧ (r = -1 ∨ r = -2 ∨ r = -3) := by
  unfold jsmnStep at h
  split at h
  · obtain ⟨h1, h2, h3, _⟩ := jsmnStepOpen_ret h
    exact ⟨h1, h2, Or.inl h3⟩
  · split at h
    · obtain ⟨h1, h2, h3⟩ := jsmnStepClose_ret h
      exact ⟨h1, h2, Or.inr (Or.inl h3)⟩
    · split at h
      · exact jsmnStepString_ret h
      · split at h
        · exact absurd h (by simp)
        · split at h
          · exact absurd h (by simp)
          · split at h
            · exact absurd (jsmnStepComma_ret h) id
            · obtain ⟨h1, h2, h3⟩ := jsmnStepPrim_ret h
              exact ⟨h1, h2, Or.imp_right Or.inl h3⟩

/-- The close walk preserves the length of the token array. -/
theorem closeWalk_some_length {T : List JsmnTok} {typ : JsmnType} {ep sup : Int} :
    ∀ fuel i T' s', closeWalk T typ ep sup fuel i = some (some (T', s')) →
      T'.length = T.length := by
  intro fuel
  induction fuel with
  | zero => intro i T' s' h; exact absurd h (by simp [closeWalk])
  | succ fuel ih =>
    intro i T' s' h
    unfold closeWalk at h
    split at h
    · split at h
      · exact absurd h (by simp)
      · injection h with h1
        injection h1 with h2
        simp only [Prod.mk.injEq] at h2
        rw [← h2.1]
        simp
    · split at h
      · split at h
        · exact absurd h (by simp)
        · injection h with h1
          injection h1 with h2
          simp only [Prod.mk.injEq] at h2
          rw [← h2.1]
      · exact ih _ _ _ h

/-- The token array produced by committing one string or primitive token at
the next free slot: the allocation record is written, filled with type and
span, and its parent link is set to the current superior. -/
def fillTokArray (T : List JsmnTok) (p : JsmnParser) (typ : JsmnType)
    (s e : Int) : List JsmnTok :=
  setTokParent
    (jsmn_fill_token
      (T.set p.toknext
        { T.getD p.toknext JsmnTok.new with
          start := -1, «end» := -1, size := 0, parent := -1 })
      p.toknext typ s e)
    p.toknext p.toksuper

theorem length_setTokParent (T : List JsmnTok) (i : Nat) (par : Int) :
    (setTokParent T i par).length = T.length := by
  simp [setTokParent]

theorem length_bumpTokSize (T : List JsmnTok) (i : Nat) :
    (bumpTokSize T i).length = T.length := by
  simp [bumpTokSize]

theorem length_jsmn_fill_token (T : List JsmnTok) (i : Nat) (t : JsmnType) (s e : Int) :
    (jsmn_fill_token T i t s e).length = T.length := by
  simp [jsmn_fill_token]

theorem length_setTokTypeStart (T : List JsmnTok) (i : Nat) (t : JsmnType) (s : Int) :
    (setTokTypeStart T i t s).length = T.length := by
  simp [setTokTypeStart]

theorem length_fillTokArray (T : List JsmnTok) (p : JsmnParser) (typ : JsmnType)
    (s e : Int) : (fillTokArray T p typ s e).length = T.length := by
  simp [fillTokArray, setTokParent, jsmn_fill_token]

theorem fillTokArray_getD_self {T : List JsmnTok} {p : JsmnParser}
    (typ : JsmnType) (s e : Int) (h : p.toknext < T.length) :
    (fillTokArray T p typ s e).getD p.toknext JsmnTok.new =
      { typ := typ, start := s, «end» := e, size := 0, parent := p.toksuper } := by
  unfold fillTokArray setTokParent jsmn_fill_token
  rw [getD_set_self _ _ _ _ (by rw [List.length_set, List.length_set]; exact h),
      getD_set_self _ _ _ _ (by rw [List.length_set]; exact h),
      getD_set_self _ _ _ _ h]

theorem fillTokArray_getD_ne {T : List JsmnTok} {p : JsmnParser} {j : Nat}
    (typ : JsmnType) (s e : Int) (hj : j ≠ p.toknext) :
    (fillTokArray T p typ s e).getD j JsmnTok.new = T.getD j JsmnTok.new := by
  unfold fillTokArray setTokParent jsmn_fill_token
  rw [getD_set_ne _ _ _ (fun hh => hj hh.symm), getD_set_ne _ _ _ (fun hh => hj hh.symm),
      getD_set_ne _ _ _ (fun hh => hj hh.symm)]

theorem getD_bumpTokSize_self {T : List JsmnTok} {i : Nat} (h : i < T.length) :
    (bumpTokSize T i).getD i JsmnTok.new =
      { T.getD i JsmnTok.new with size := (T.getD i JsmnTok.new).size + 1 } := by
  unfold bumpTokSize
  rw [getD_set_self _ _ _ _ h]

theorem getD_bumpTokSize_ne {T : List JsmnTok} {i j : Nat} (h : i ≠ j) :
    (bumpTokSize T i).getD j JsmnTok.new = T.getD j JsmnTok.new := by
  unfold bumpTokSize
  rw [getD_set_ne _ _ _ h]

/-- The token array produced by opening a container at the next free slot. -/
def openTokArray (T : List JsmnTok) (p : JsmnParser) (typ : JsmnType) :
    List JsmnTok :=
  if p.toksuper = -1 then
    setTokTypeStart
      (T.set p.toknext
        { T.getD p.toknext JsmnTok.new with
          start := -1, «end» := -1, size := 0, parent := -1 })
      p.toknext typ (p.pos : Int)
  else
    setTokTypeStart
      (setTokParent
        (bumpTokSize
          (T.set p.toknext
            { T.getD p.toknext JsmnTok.new with
              start := -1, «end» := -1, size := 0, parent := -1 })
          p.toksuper.toNat)
        p.toknext p.toksuper)
      p.toknext typ (p.pos : Int)

theorem length_openTokArray (T : List JsmnTok) (p : JsmnParser) (typ : JsmnType) :
    (openTokArray T p typ).length = T.length := by
  unfold openTokArray
  split <;> simp [setTokTypeStart, setTokParent, bumpTokSize]

theorem openTokArray_getD_self {T : List JsmnTok} {p : JsmnParser}
    (typ : JsmnType) (h : p.toknext < T.length)
    (hs : p.toksuper ≠ -1 → p.toksuper.toNat ≠ p.toknext) :
    (openTokArray T p typ).getD p.toknext JsmnTok.new =
      { typ := typ, start := (p.pos : Int), «end» := -1, size := 0,
        parent := if p.toksuper = -1 then -1 else p.toksuper } := by
  unfold openTokArray setTokTypeStart setTokParent
  split
  · rename_i hsup
    rw [getD_set_self _ _ _ _ (by rw [List.length_set]; exact h),
        getD_set_self _ _ _ _ h]
  · rename_i hsup
    rw [getD_set_self _ _ _ _ (by simp [bumpTokSize]; omega),
        getD_set_self _ _ _ _ (by simp [bumpTokSize]; omega),
        getD_bumpTokSize_ne (hs hsup), getD_set_self _ _ _ _ h]

theorem openTokArray_getD_ne {T : List JsmnTok} {p : JsmnParser} {j : Nat}
    (typ : JsmnType) (hj : j ≠ p.toknext) (hjlen : j < T.length) :
    (openTokArray T p typ).getD j JsmnTok.new =
      (if p.toksuper ≠ -1 ∧ j = p.toksuper.toNat then
        { T.getD j JsmnTok.new with size := (T.getD j JsmnTok.new).size + 1 }
      else T.getD j JsmnTok.new) := by
  unfold openTokArray setTokTypeStart setTokParent
  split
  · rename_i hsup
    rw [getD_set_ne _ _ _ (fun hh => hj hh.symm), getD_set_ne _ _ _ (fun hh => hj hh.symm)]
    simp [hsup]
  · rename_i hsup
    rw [getD_set_ne _ _ _ (fun hh => hj hh.symm), getD_set_ne _ _ _ (fun hh => hj hh.symm)]
    by_cases hjs : j = p.toksuper.toNat
    · rw [← hjs]
      rw [getD_bumpTokSize_self (by rw [List.length_set]; exact hjlen)]
      rw [getD_set_ne _ _ _ (fun hh => hj hh.symm)]
      simp [hsup, hjs]
    · rw [getD_bumpTokSize_ne (fun hh => hjs hh.symm),
          getD_set_ne _ _ _ (fun hh => hj hh.symm)]
      simp [hjs]

theorem cast_succ_sub_one (n : Nat) : ((n + 1 : Nat) : Int) - 1 = (n : Int) := by
  push_cast
  ring

theorem jsmnStepOpen_next {c : Nat} {p : JsmnParser} {T : List JsmnTok}
    {count : Nat} {p' T' c'} (h : jsmnStepOpen c p T count = .next p' T' c') :
    p.toknext < T.length ∧
    p' = { pos := p.pos + 1, toknext := p.toknext + 1, toksuper := (p.toknext : Int) } ∧
    c' = count + 1 ∧
    T' = openTokArray T p (if c = 123 then .JsmnObject else .JsmnArray) := by
  unfold jsmnStepOpen at h
  split at h
  · exact absurd h (by simp)
  · rename_i p1 T1 idx heq
    obtain ⟨hlt, hp1, hT1, hidx⟩ := jsmn_alloc_token_some heq
    subst hp1; subst hT1; subst hidx
    split at h
    · rename_i hsup
      injection h with h1 h2 h3
      refine ⟨hlt, ?_, h3.symm, ?_⟩
      · rw [← h1, cast_succ_sub_one]
      · rw [← h2]
        unfold openTokArray
        rw [if_pos hsup]
    · rename_i hsup
      injection h with h1 h2 h3
      refine ⟨hlt, ?_, h3.symm, ?_⟩
      · rw [← h1, cast_succ_sub_one]
      · rw [← h2]
        unfold openTokArray
        rw [if_neg hsup]

theorem jsmnStepString_next {js : List Nat} {len : Nat} {p : JsmnParser}
    {T : List JsmnTok} {count : Nat} {p' T' c'}
    (h : jsmnStepString js len p T count = .next p' T' c') :
    p.toknext < T.length ∧ c' = count + 1 ∧
    ∃ q, strScanQ js len (p.pos + 1) = .found q ∧
      p' = { pos := q + 1, toknext := p.toknext + 1, toksuper := p.toksuper } ∧
      T' = (if p.toksuper = -1 then
              fillTokArray T p .JsmnString ((p.pos : Int) + 1) (q : Int)
            else
              bumpTokSize (fillTokArray T p .JsmnString ((p.pos : Int) + 1) (q : Int))
                p.toksuper.toNat) := by
  unfold jsmnStepString at h
  split at h
  rename_i p1 T1 r1 hstr
  split at h
  · exact absurd h (by simp)
  · rename_i hge
    push_neg at hge
    obtain ⟨hr0, hlt, q, hq, hp1, hT1⟩ := jsmn_parse_string_ok hstr hge
    subst hp1; subst hT1
    split at h
    · rename_i hsup
      injection h with h1 h2 h3
      refine ⟨hlt, h3.symm, q, hq, h1.symm, ?_⟩
      rw [← h2]
      rw [if_neg hsup]
      rfl
    · rename_i hsup
      push_neg at hsup
      injection h with h1 h2 h3
      refine ⟨hlt, h3.symm, q, hq, h1.symm, ?_⟩
      rw [← h2]
      rw [if_pos hsup]
      rfl

theorem jsmnStepPrim_next {js : List Nat} {len : Nat} {p : JsmnParser}
    {T : List JsmnTok} {count : Nat} {p' T' c'}
    (h : jsmnStepPrim js len p T count = .next p' T' c') :
    p.toknext < T.length ∧ c' = count + 1 ∧
    ∃ e, primScan js len p.pos = .found e ∧
      p' = { pos := (e - 1) + 1, toknext := p.toknext + 1, toksuper := p.toksuper } ∧
      T' = (if p.toksuper = -1 then
              fillTokArray T p .JsmnPrimitive (p.pos : Int) (e : Int)
            else
              bumpTokSize (fillTokArray T p .JsmnPrimitive (p.pos : Int) (e : Int))
                p.toksuper.toNat) := by
  unfold jsmnStepPrim at h
  split at h
  rename_i p1 T1 r1 hprim
  split at h
  · exact absurd h (by simp)
  · rename_i hge
    push_neg at hge
    obtain ⟨hr0, hlt, e, he, hp1, hT1⟩ := jsmn_parse_primitive_ok hprim hge
    subst hp1; subst hT1
    split at h
    · rename_i hsup
      injection h with h1 h2 h3
      refine ⟨hlt, h3.symm, e, he, h1.symm, ?_⟩
      rw [← h2]
      rw [if_neg hsup]
      rfl
    · rename_i hsup
      push_neg at hsup
      injection h with h1 h2 h3
      refine ⟨hlt, h3.symm, e, he, h1.symm, ?_⟩
      rw [← h2]
      rw [if_pos hsup]
      rfl

theorem jsmnStepClose_next {c : Nat} {p : JsmnParser} {T : List JsmnTok}
    {count : Nat} {p' T' c'} (h : jsmnStepClose c p T count = .next p' T' c') :
    1 ≤ p.toknext ∧ c' = count ∧
    ∃ sw, closeWalk T (if c = 125 then .JsmnObject else .JsmnArray)
        ((p.pos : Int) + 1) p.toksuper p.toknext (p.toknext - 1) = some (some (T', sw)) ∧
      p' = { pos := p.pos + 1, toknext := p.toknext, toksuper := sw } := by
  unfold jsmnStepClose at h
  split at h
  · exact absurd h (by simp)
  · rename_i hge
    split at h
    · exact absurd h (by simp)
    · exact absurd h (by simp)
    · rename_i Tw sw hw
      injection h with h1 h2 h3
      subst h2
      exact ⟨by omega, h3.symm, sw, hw, h1.symm⟩

/-- Characterization of a successful close walk under the parent invariant:
either nothing changes, or exactly one committed open token gets its end
offset written, and the new superior is that token's parent. -/
theorem closeWalk_shape {T : List JsmnTok} {typ : JsmnType} {ep sup : Int} {n : Nat}
    (hpar : ∀ j, j < n →
      -1 ≤ (T.getD j JsmnTok.new).parent ∧ (T.getD j JsmnTok.new).parent < (j : Int)) :
    ∀ fuel i, i < n → ∀ {T' : List JsmnTok} {s' : Int},
      closeWalk T typ ep sup fuel i = some (some (T', s')) →
      (T' = T ∧ s' = sup) ∨
      ∃ j, j < n ∧ T' = T.set j { T.getD j JsmnTok.new with «end» := ep } ∧
        s' = (T.getD j JsmnTok.new).parent := by
  intro fuel
  induction fuel with
  | zero => intro i _ T' s' h; exact absurd h (by simp [closeWalk])
  | succ fuel ih =>
    intro i hi T' s' h
    unfold closeWalk at h
    split at h
    · split at h
      · exact absurd h (by simp)
      · injection h with h1
        injection h1 with h2
        simp only [Prod.mk.injEq] at h2
        exact Or.inr ⟨i, hi, h2.1.symm, h2.2.symm⟩
    · split at h
      · split at h
        · exact absurd h (by simp)
        · injection h with h1
          injection h1 with h2
          simp only [Prod.mk.injEq] at h2
          exact Or.inl ⟨h2.1.symm, h2.2.symm⟩
      · rename_i hopen hparne
        have hji := hpar i hi
        have : (T.getD i JsmnTok.new).parent.toNat < i := by omega
        exact ih _ (by omega) h

/-- The close walk behaves identically on two arrays that agree below the
committed bound, provided the walk starts below the bound and parent links
descend. -/
theorem closeWalk_sim {T U : List JsmnTok} {typ : JsmnType} {ep sup : Int} {n : Nat}
    (hpar : ∀ j, j < n →
      -1 ≤ (T.getD j JsmnTok.new).parent ∧ (T.getD j JsmnTok.new).parent < (j : Int))
    (ha : agreeBelow n T U) (hn : n ≤ T.length) (hnU : n ≤ U.length) :
    ∀ fuel i, i < n →
      (closeWalk T typ ep sup fuel i = none → closeWalk U typ ep sup fuel i = none) ∧
      (closeWalk T typ ep sup fuel i = some none →
        closeWalk U typ ep sup fuel i = some none) ∧
      (∀ T' s', closeWalk T typ ep sup fuel i = some (some (T', s')) →
        ∃ U', closeWalk U typ ep sup fuel i = some (some (U', s')) ∧
          agreeBelow n T' U' ∧ U'.length = U.length) := by
  intro fuel
  induction fuel with
  | zero =>
    intro i _
    refine ⟨fun _ => by simp [closeWalk], fun h => absurd h (by simp [closeWalk]),
      fun T' s' h => absurd h (by simp [closeWalk])⟩
  | succ fuel ih =>
    intro i hi
    have hTU : T.getD i JsmnTok.new = U.getD i JsmnTok.new := ha i hi
    refine ⟨?_, ?_, ?_⟩
    · intro h
      unfold closeWalk at h ⊢
      rw [← hTU]
      split at h
      · split at h <;> exact absurd h (by simp)
      · rename_i htop
        rw [if_neg htop]
        split at h
        · split at h <;> exact absurd h (by simp)
        · rename_i hpne
          rw [if_neg hpne]
          have hji := hpar i hi
          exact (ih _ (by omega)).1 h
    · intro h
      unfold closeWalk at h ⊢
      rw [← hTU]
      split at h
      · rename_i htop
        rw [if_pos htop]
        split at h
        · rename_i hty
          rw [if_pos hty]
        · exact absurd h (by simp)
      · rename_i htop
        rw [if_neg htop]
        split at h
        · rename_i hpeq
          rw [if_pos hpeq]
          split at h
          · rename_i hbad
            rw [if_pos hbad]
          · exact absurd h (by simp)
        · rename_i hpne
          rw [if_neg hpne]
          have hji := hpar i hi
          exact (ih _ (by omega)).2.1 h
    · intro T' s' h
      unfold closeWalk at h ⊢
      rw [← hTU]
      split at h
      · rename_i htop
        rw [if_pos htop]
        split at h
        · exact absurd h (by simp)
        · rename_i hty
          rw [if_neg hty]
          injection h with h1
          injection h1 with h2
          simp only [Prod.mk.injEq] at h2
          refine ⟨U.set i { T.getD i JsmnTok.new with «end» := ep },
            by rw [← h2.2], ?_, by simp⟩
          rw [← h2.1]
          intro j hj
          by_cases hij : i = j
          · subst hij
            rw [getD_set_self _ _ _ _ (by omega), getD_set_self _ _ _ _ (by omega)]
          · rw [getD_set_ne _ _ _ hij, getD_set_ne _ _ _ hij]
            exact ha j hj
      · rename_i htop
        rw [if_neg htop]
        split at h
        · rename_i hpeq
          rw [if_pos hpeq]
          split at h
          · exact absurd h (by simp)
          · rename_i hbad
            rw [if_neg hbad]
            injection h with h1
            injection h1 with h2
            simp only [Prod.mk.injEq] at h2
            exact ⟨U, by rw [← h2.2], by rw [← h2.1]; exact ha, rfl⟩
        · rename_i hpne
          rw [if_neg hpne]
          have hji := hpar i hi
          exact (ih _ (by omega)).2.2 T' s' h

theorem jsmnStepComma_next {p : JsmnParser} {T : List JsmnTok} {count : Nat}
    {p' T' c'} (h : jsmnStepComma p T count = .next p' T' c') :
    T' = T ∧ c' = count ∧ p'.toknext = p.toknext ∧ p'.pos = p.pos + 1 ∧
    (p'.toksuper = p.toksuper ∨
      (p.toksuper ≠ -1 ∧ p'.toksuper = (T.getD p.toksuper.toNat JsmnTok.new).parent)) := by
  unfold jsmnStepComma at h
  split at h
  · rename_i hcond
    injection h with h1 h2 h3
    rw [← h1]
    exact ⟨h2.symm, h3.symm, rfl, rfl, Or.inr ⟨hcond.1, rfl⟩⟩
  · injection h with h1 h2 h3
    rw [← h1]
    exact ⟨h2.symm, h3.symm, rfl, rfl, Or.inl rfl⟩

/-- Bookkeeping of a successful iteration: the array length is preserved, the
next-token-index grows by zero or one (one only when there was room), and the
count stays in lockstep with the next-token-index. -/
theorem jsmnStep_next_main {js : List Nat} {len : Nat} {p : JsmnParser}
    {T : List JsmnTok} {count : Nat} {p' T' c'}
    (h : jsmnStep js len p T count = .next p' T' c') :
    T'.length = T.length ∧
    (p'.toknext = p.toknext ∨ (p'.toknext = p.toknext + 1 ∧ p.toknext < T.length)) ∧
    (count = p.toknext → c' = p'.toknext) := by
  unfold jsmnStep at h
  split at h
  · obtain ⟨hlt, hp, hc, hT⟩ := jsmnStepOpen_next h
    subst hp; subst hc; subst hT
    exact ⟨length_openTokArray _ _ _, Or.inr ⟨rfl, hlt⟩, fun hcnt => by rw [hcnt]⟩
  · split at h
    · obtain ⟨h1, hc, sw, hw, hp⟩ := jsmnStepClose_next h
      subst hp; subst hc
      exact ⟨closeWalk_some_length _ _ _ _ hw, Or.inl rfl, fun hcnt => hcnt⟩
    · split at h
      · obtain ⟨hlt, hc, q, hq, hp, hT⟩ := jsmnStepString_next h
        subst hp; subst hc; subst hT
        refine ⟨?_, Or.inr ⟨rfl, hlt⟩, fun hcnt => by rw [hcnt]⟩
        split
        · exact length_fillTokArray _ _ _ _ _
        · rw [length_bumpTokSize]
          exact length_fillTokArray _ _ _ _ _
      · split at h
        · injection h with h1 h2 h3
          rw [← h1, ← h2]
          exact ⟨rfl, Or.inl rfl, fun hcnt => by rw [← h3, hcnt]⟩
        · split at h
          · injection h with h1 h2 h3
            rw [← h1, ← h2]
            exact ⟨rfl, Or.inl rfl, fun hcnt => by rw [← h3, hcnt]⟩
          · split at h
            · obtain ⟨hT, hc, htn, hpos, _⟩ := jsmnStepComma_next h
              subst hT; subst hc
              exact ⟨rfl, Or.inl htn, fun hcnt => by rw [htn, hcnt]⟩
            · obtain ⟨hlt, hc, e, he, hp, hT⟩ := jsmnStepPrim_next h
              subst hp; subst hc; subst hT
              refine ⟨?_, Or.inr ⟨rfl, hlt⟩, fun hcnt => by rw [hcnt]⟩
              split
              · exact length_fillTokArray _ _ _ _ _
              · rw [length_bumpTokSize]
                exact length_fillTokArray _ _ _ _ _

/-- The combined loop invariant: structural parent links plus the bound of
the next-token-index by the array capacity. -/
def scanInv (p : JsmnParser) (T : List JsmnTok) : Prop :=
  parserInv p T ∧ p.toknext ≤ T.length

/-- One successful iteration preserves the loop invariant. -/
theorem jsmnStep_inv {js : List Nat} {len : Nat} {p : JsmnParser}
    {T : List JsmnTok} {count : Nat} {p' T' c'}
    (hinv : scanInv p T) (h : jsmnStep js len p T count = .next p' T' c') :
    scanInv p' T' := by
  obtain ⟨⟨hsc1, hsc2, hpar⟩, hcap⟩ := hinv
  have hlen := (jsmnStep_next_main h).1
  have htn := (jsmnStep_next_main h).2.1
  have hcap' : p'.toknext ≤ T'.length := by rw [hlen]; omega
  refine ⟨⟨?_, ?_, ?_⟩, hcap'⟩ <;> clear hcap' <;> unfold jsmnStep at h
  case _ =>
    -- -1 ≤ toksuper after the step
    split at h
    · obtain ⟨hlt, hp, hc, hT⟩ := jsmnStepOpen_next h
      subst hp
      simp
      omega
    · split at h
      · obtain ⟨h1, hc, sw, hw, hp⟩ := jsmnStepClose_next h
        subst hp
        rcases closeWalk_shape hpar p.toknext (p.toknext - 1) (by omega) hw with
          ⟨_, rfl⟩ | ⟨j, hj, _, hsw⟩
        · exact hsc1
        · have := hpar j hj
          simp
          omega
      · split at h
        · obtain ⟨hlt, hc, q, hq, hp, hT⟩ := jsmnStepString_next h
          subst hp
          exact hsc1
        · split at h
          · injection h with h1 h2 h3
            rw [← h1]
            exact hsc1
          · split at h
            · injection h with h1 h2 h3
              rw [← h1]
              simp
            · split at h
              · rcases (jsmnStepComma_next h).2.2.2.2 with hsup | ⟨hne, hsup⟩
                · rw [hsup]; exact hsc1
                · have hge : (0 : Int) ≤ p.toksuper := by omega
                  have hlt2 : p.toksuper.toNat < p.toknext := by omega
                  have := hpar p.toksuper.toNat hlt2
                  rw [hsup]
                  omega
              · obtain ⟨hlt, hc, e, he, hp, hT⟩ := jsmnStepPrim_next h
                subst hp
                exact hsc1
  case _ =>
    -- toksuper < toknext after the step
    split at h
    · obtain ⟨hlt, hp, hc, hT⟩ := jsmnStepOpen_next h
      subst hp
      simp
    · split at h
      · obtain ⟨h1, hc, sw, hw, hp⟩ := jsmnStepClose_next h
        subst hp
        rcases closeWalk_shape hpar p.toknext (p.toknext - 1) (by omega) hw with
          ⟨_, rfl⟩ | ⟨j, hj, _, hsw⟩
        · exact hsc2
        · have := hpar j hj
          simp
          omega
      · split at h
        · obtain ⟨hlt, hc, q, hq, hp, hT⟩ := jsmnStepString_next h
          subst hp
          simp
          omega
        · split at h
          · injection h with h1 h2 h3
            rw [← h1]
            exact hsc2
          · split at h
            · injection h with h1 h2 h3
              rw [← h1]
              simp
            · split at h
              · rcases (jsmnStepComma_next h).2.2.2.2 with hsup | ⟨hne, hsup⟩
                · rw [hsup, (jsmnStepComma_next h).2.2.1]
                  exact hsc2
                · have hlt2 : p.toksuper.toNat < p.toknext := by omega
                  have := hpar p.toksuper.toNat hlt2
                  rw [hsup, (jsmnStepComma_next h).2.2.1]
                  omega
              · obtain ⟨hlt, hc, e, he, hp, hT⟩ := jsmnStepPrim_next h
                subst hp
                simp
                omega
  case _ =>
    -- parent links of committed slots still descend
    intro i hi
    split at h
    · obtain ⟨hlt, hp, hc, hT⟩ := jsmnStepOpen_next h
      subst hp; subst hT
      simp only at hi
      by_cases hieq : i = p.toknext
      · subst hieq
        rw [openTokArray_getD_self _ hlt (fun hne => by omega)]
        split <;> simp <;> omega
      · have hilt : i < p.toknext := by omega
        rw [openTokArray_getD_ne _ hieq (by omega)]
        have := hpar i hilt
        split
        · simpa using this
        · exact this
    · split at h
      · obtain ⟨h1, hc, sw, hw, hp⟩ := jsmnStepClose_next h
        subst hp
        simp only at hi
        rcases closeWalk_shape hpar p.toknext (p.toknext - 1) (by omega) hw with
          ⟨rfl, _⟩ | ⟨j, hj, rfl, hsw⟩
        · exact hpar i hi
        · by_cases hij : j = i
          · subst hij
            rw [getD_set_self _ _ _ _ (by omega)]
            exact hpar j hj
          · rw [getD_set_ne _ _ _ hij]
            exact hpar i hi
      · split at h
        · obtain ⟨hlt, hc, q, hq, hp, hT⟩ := jsmnStepString_next h
          subst hp; subst hT
          simp only at hi
          by_cases hieq : i = p.toknext
          · subst hieq
            split
            · rw [fillTokArray_getD_self _ _ _ hlt]
              simp
              omega
            · rename_i hsup
              rw [getD_bumpTokSize_ne (by omega), fillTokArray_getD_self _ _ _ hlt]
              simp
              omega
          · have hilt : i < p.toknext := by omega
            have hbase := hpar i hilt
            split
            · rw [fillTokArray_getD_ne _ _ _ hieq]
              exact hbase
            · by_cases his : p.toksuper.toNat = i
              · rw [← his] at hbase ⊢
                rw [getD_bumpTokSize_self (by rw [length_fillTokArray]; omega),
                  fillTokArray_getD_ne _ _ _ (by omega)]
                exact hbase
              · rw [getD_bumpTokSize_ne his, fillTokArray_getD_ne _ _ _ hieq]
                exact hbase
        · split at h
          · injection h with h1 h2 h3
            rw [← h1] at hi
            rw [← h2]
            exact hpar i hi
          · split at h
            · injection h with h1 h2 h3
              rw [← h1] at hi
              rw [← h2]
              exact hpar i hi
            · split at h
              · obtain ⟨hTq, hcq, htnq, hposq, _⟩ := jsmnStepComma_next h
                subst hTq
                rw [htnq] at hi
                exact hpar i hi
              · obtain ⟨hlt, hc, e, he, hp, hT⟩ := jsmnStepPrim_next h
                subst hp; subst hT
                simp only at hi
                by_cases hieq : i = p.toknext
                · subst hieq
                  split
                  · rw [fillTokArray_getD_self _ _ _ hlt]
                    simp
                    omega
                  · rename_i hsup
                    rw [getD_bumpTokSize_ne (by omega), fillTokArray_getD_self _ _ _ hlt]
                    simp
                    omega
                · have hilt : i < p.toknext := by omega
                  have hbase := hpar i hilt
                  split
                  · rw [fillTokArray_getD_ne _ _ _ hieq]
                    exact hbase
                  · by_cases his : p.toksuper.toNat = i
                    · rw [← his] at hbase ⊢
                      rw [getD_bumpTokSize_self (by rw [length_fillTokArray]; omega),
                        fillTokArray_getD_ne _ _ _ (by omega)]
                      exact hbase
                    · rw [getD_bumpTokSize_ne his, fillTokArray_getD_ne _ _ _ hieq]
                      exact hbase

theorem jsmn_alloc_token_eval {p : JsmnParser} {U : List JsmnTok}
    (hroom : p.toknext < U.length) :
    jsmn_alloc_token p U =
      some ({ p with toknext := p.toknext + 1 },
        U.set p.toknext
          { U.getD p.toknext JsmnTok.new with
            start := -1, «end» := -1, size := 0, parent := -1 },
        p.toknext) := by
  unfold jsmn_alloc_token
  rw [if_pos hroom]

theorem jsmn_alloc_token_eval_none {p : JsmnParser} {U : List JsmnTok}
    (hfull : U.length ≤ p.toknext) :
    jsmn_alloc_token p U = none := by
  unfold jsmn_alloc_token
  rw [if_neg (by omega)]

theorem jsmnStepOpen_eval {c : Nat} {p : JsmnParser} {U : List JsmnTok}
    {count : Nat} (hroom : p.toknext < U.length) :
    jsmnStepOpen c p U count =
      .next { pos := p.pos + 1, toknext := p.toknext + 1, toksuper := (p.toknext : Int) }
        (openTokArray U p (if c = 123 then .JsmnObject else .JsmnArray))
        (count + 1) := by
  unfold jsmnStepOpen
  rw [jsmn_alloc_token_eval hroom]
  dsimp only
  unfold openTokArray
  by_cases hsup : p.toksuper = -1
  · rw [if_pos hsup, cast_succ_sub_one, if_pos hsup]
  · rw [if_neg hsup, cast_succ_sub_one, if_neg hsup]

theorem jsmnStepOpen_eval_nomem {c : Nat} {p : JsmnParser} {U : List JsmnTok}
    {count : Nat} (hfull : U.length ≤ p.toknext) :
    jsmnStepOpen c p U count = .ret p U (-1) := by
  unfold jsmnStepOpen
  rw [jsmn_alloc_token_eval_none hfull]

theorem jsmn_parse_string_eval {p : JsmnParser} {js : List Nat} {len : Nat}
    {U : List JsmnTok} {q : Nat} (hq : strScanQ js len (p.pos + 1) = .found q)
    (hroom : p.toknext < U.length) :
    jsmn_parse_string p js len U =
      ({ pos := q, toknext := p.toknext + 1, toksuper := p.toksuper },
       fillTokArray U p .JsmnString ((p.pos : Int) + 1) (q : Int), 0) := by
  unfold jsmn_parse_string strCommit
  rw [hq, jsmn_alloc_token_eval hroom]
  rfl

theorem jsmn_parse_string_eval_nomem {p : JsmnParser} {js : List Nat} {len : Nat}
    {U : List JsmnTok} {q : Nat} (hq : strScanQ js len (p.pos + 1) = .found q)
    (hfull : U.length ≤ p.toknext) :
    jsmn_parse_string p js len U = (p, U, -1) := by
  unfold jsmn_parse_string strCommit
  rw [hq, jsmn_alloc_token_eval_none hfull]

theorem jsmnStepString_eval {p : JsmnParser} {js : List Nat} {len : Nat}
    {U : List JsmnTok} {count q : Nat} (hq : strScanQ js len (p.pos + 1) = .found q)
    (hroom : p.toknext < U.length) :
    jsmnStepString js len p U count =
      .next { pos := q + 1, toknext := p.toknext + 1, toksuper := p.toksuper }
        (if p.toksuper = -1 then fillTokArray U p .JsmnString ((p.pos : Int) + 1) (q : Int)
         else bumpTokSize (fillTokArray U p .JsmnString ((p.pos : Int) + 1) (q : Int))
           p.toksuper.toNat)
        (count + 1) := by
  unfold jsmnStepString
  rw [jsmn_parse_string_eval hq hroom]
  dsimp only
  rw [if_neg (show ¬((0 : Int) < 0) by omega)]
  by_cases hsup : p.toksuper = -1
  · rw [if_neg (by simpa using hsup), if_pos hsup]
  · rw [if_pos (by simpa using hsup), if_neg hsup]

theorem jsmnStepString_eval_nomem {p : JsmnParser} {js : List Nat} {len : Nat}
    {U : List JsmnTok} {count q : Nat} (hq : strScanQ js len (p.pos + 1) = .found q)
    (hfull : U.length ≤ p.toknext) :
    jsmnStepString js len p U count = .ret p U (-1) := by
  unfold jsmnStepString
  rw [jsmn_parse_string_eval_nomem hq hfull]
  dsimp only
  rw [if_pos (show ((-1 : Int) < 0) by omega)]

theorem jsmn_parse_primitive_eval {p : JsmnParser} {js : List Nat} {len : Nat}
    {U : List JsmnTok} {e : Nat} (he : primScan js len p.pos = .found e)
    (hroom : p.toknext < U.length) :
    jsmn_parse_primitive p js len U =
      ({ pos := e - 1, toknext := p.toknext + 1, toksuper := p.toksuper },
       fillTokArray U p .JsmnPrimitive (p.pos : Int) (e : Int), 0) := by
  unfold jsmn_parse_primitive
  rw [he, jsmn_alloc_token_eval hroom]
  rfl

theorem jsmn_parse_primitive_eval_nomem {p : JsmnParser} {js : List Nat} {len : Nat}
    {U : List JsmnTok} {e : Nat} (he : primScan js len p.pos = .found e)
    (hfull : U.length ≤ p.toknext) :
    jsmn_parse_primitive p js len U = (p, U, -1) := by
  unfold jsmn_parse_primitive
  rw [he, jsmn_alloc_token_eval_none hfull]

theorem jsmnStepPrim_eval {p : JsmnParser} {js : List Nat} {len : Nat}
    {U : List JsmnTok} {count e : Nat} (he : primScan js len p.pos = .found e)
    (hroom : p.toknext < U.length) :
    jsmnStepPrim js len p U count =
      .next { pos := (e - 1) + 1, toknext := p.toknext + 1, toksuper := p.toksuper }
        (if p.toksuper = -1 then fillTokArray U p .JsmnPrimitive (p.pos : Int) (e : Int)
         else bumpTokSize (fillTokArray U p .JsmnPrimitive (p.pos : Int) (e : Int))
           p.toksuper.toNat)
        (count + 1) := by
  unfold jsmnStepPrim
  rw [jsmn_parse_primitive_eval he hroom]
  dsimp only
  rw [if_neg (show ¬((0 : Int) < 0) by omega)]
  by_cases hsup : p.toksuper = -1
  · rw [if_neg (by simpa using hsup), if_pos hsup]
  · rw [if_pos (by simpa using hsup), if_neg hsup]

theorem jsmnStepPrim_eval_nomem {p : JsmnParser} {js : List Nat} {len : Nat}
    {U : List JsmnTok} {count e : Nat} (he : primScan js len p.pos = .found e)
    (hfull : U.length ≤ p.toknext) :
    jsmnStepPrim js len p U count = .ret p U (-1) := by
  unfold jsmnStepPrim
  rw [jsmn_parse_primitive_eval_nomem he hfull]
  dsimp only
  rw [if_pos (show ((-1 : Int) < 0) by omega)]

/-- Committing one string or primitive token preserves agreement of the two
arrays, one slot further. -/
theorem fillBump_agree {T U : List JsmnTok} {p : JsmnParser} (typ : JsmnType)
    (s e : Int) (hinv : scanInv p T) (ha : agreeBelow p.toknext T U)
    (hroomT : p.toknext < T.length) (hroomU : p.toknext < U.length) :
    agreeBelow (p.toknext + 1)
      (if p.toksuper = -1 then fillTokArray T p typ s e
       else bumpTokSize (fillTokArray T p typ s e) p.toksuper.toNat)
      (if p.toksuper = -1 then fillTokArray U p typ s e
       else bumpTokSize (fillTokArray U p typ s e) p.toksuper.toNat) := by
  obtain ⟨⟨hs1, hs2, hpar⟩, hcap⟩ := hinv
  intro i hi
  by_cases hsup : p.toksuper = -1
  · rw [if_pos hsup, if_pos hsup]
    by_cases hieq : i = p.toknext
    · subst hieq
      rw [fillTokArray_getD_self _ _ _ hroomT, fillTokArray_getD_self _ _ _ hroomU]
    · rw [fillTokArray_getD_ne _ _ _ hieq, fillTokArray_getD_ne _ _ _ hieq]
      exact ha i (by omega)
  · rw [if_neg hsup, if_neg hsup]
    have hts : p.toksuper.toNat < p.toknext := by omega
    by_cases hieq : i = p.toknext
    · subst hieq
      rw [getD_bumpTokSize_ne (by omega), getD_bumpTokSize_ne (by omega),
        fillTokArray_getD_self _ _ _ hroomT, fillTokArray_getD_self _ _ _ hroomU]
    · by_cases his : p.toksuper.toNat = i
      · rw [← his]
        rw [getD_bumpTokSize_self (by rw [length_fillTokArray]; omega),
          getD_bumpTokSize_self (by rw [length_fillTokArray]; omega),
          fillTokArray_getD_ne _ _ _ (by omega), fillTokArray_getD_ne _ _ _ (by omega)]
        rw [ha p.toksuper.toNat hts]
      · rw [getD_bumpTokSize_ne his, getD_bumpTokSize_ne his,
          fillTokArray_getD_ne _ _ _ hieq, fillTokArray_getD_ne _ _ _ hieq]
        exact ha i (by omega)

/-- Opening one container token preserves agreement of the two arrays, one
slot further. -/
theorem open_agree {T U : List JsmnTok} {p : JsmnParser} (typ : JsmnType)
    (hinv : scanInv p T) (ha : agreeBelow p.toknext T U)
    (hroomT : p.toknext < T.length) (hroomU : p.toknext < U.length) :
    agreeBelow (p.toknext + 1) (openTokArray T p typ) (openTokArray U p typ) := by
  obtain ⟨⟨hs1, hs2, hpar⟩, hcap⟩ := hinv
  intro i hi
  by_cases hieq : i = p.toknext
  · subst hieq
    rw [openTokArray_getD_self _ hroomT (fun hne => by omega),
      openTokArray_getD_self _ hroomU (fun hne => by omega)]
  · have hilt : i < p.toknext := by omega
    rw [openTokArray_getD_ne _ hieq (by omega), openTokArray_getD_ne _ hieq (by omega)]
    rw [ha i hilt]

/-- One successful iteration is simulated on any second array that agrees on
the committed slots and has room for the outcome: the parser state and count
evolve identically and the arrays still agree on the committed slots. -/
theorem jsmnStep_sim {js : List Nat} {len : Nat} {p : JsmnParser}
    {T U : List JsmnTok} {count : Nat} {p' T' c'}
    (hinv : scanInv p T) (ha : agreeBelow p.toknext T U)
    (h : jsmnStep js len p T count = .next p' T' c')
    (hU : p'.toknext ≤ U.length) :
    ∃ U', jsmnStep js len p U count = .next p' U' c' ∧
      agreeBelow p'.toknext T' U' ∧ U'.length = U.length := by
  have hUlen0 : p.toknext ≤ U.length := by
    rcases (jsmnStep_next_main h).2.1 with h1 | ⟨h1, _⟩ <;> omega
  unfold jsmnStep at h
  split at h
  · -- open
    rename_i hc1
    obtain ⟨hlt, hp, hc, hT⟩ := jsmnStepOpen_next h
    have hroomU : p.toknext < U.length := by rw [hp] at hU; simpa using hU
    refine ⟨openTokArray U p (if js.getD p.pos 0 = 123 then .JsmnObject else .JsmnArray),
      ?_, ?_, by rw [length_openTokArray]⟩
    · unfold jsmnStep
      rw [if_pos hc1, jsmnStepOpen_eval hroomU, hp, hc]
    · rw [hp, hT]
      exact open_agree _ hinv ha hlt hroomU
  · split at h
    · -- close
      rename_i hc1 hc2
      obtain ⟨h1, hc, sw, hw, hp⟩ := jsmnStepClose_next h
      have hUlen : p.toknext ≤ U.length := hUlen0
      obtain ⟨⟨hs1, hs2, hpar⟩, hcap⟩ := hinv
      obtain ⟨U', hwU, haU, hlenU⟩ :=
        (closeWalk_sim hpar ha hcap hUlen p.toknext (p.toknext - 1) (by omega)).2.2 T' sw hw
      refine ⟨U', ?_, ?_, hlenU⟩
      · unfold jsmnStep jsmnStepClose
        rw [if_neg hc1, if_pos hc2, if_neg (by omega), hwU, hp, hc]
      · rw [hp]
        exact haU
    · split at h
      · -- string
        rename_i hc1 hc2 hc3
        obtain ⟨hlt, hc, q, hq, hp, hT⟩ := jsmnStepString_next h
        have hroomU : p.toknext < U.length := by rw [hp] at hU; simpa using hU
        refine ⟨if p.toksuper = -1 then
            fillTokArray U p .JsmnString ((p.pos : Int) + 1) (q : Int)
          else bumpTokSize (fillTokArray U p .JsmnString ((p.pos : Int) + 1) (q : Int))
            p.toksuper.toNat, ?_, ?_, ?_⟩
        · unfold jsmnStep
          rw [if_neg hc1, if_neg hc2, if_pos hc3, jsmnStepString_eval hq hroomU, hp, hc]
        · rw [hp, hT]
          exact fillBump_agree _ _ _ hinv ha hlt hroomU
        · split <;> simp [length_fillTokArray, length_bumpTokSize]
      · split at h
        · -- whitespace
          rename_i hc1 hc2 hc3 hc4
          injection h with h1 h2 h3
          refine ⟨U, ?_, ?_, rfl⟩
          · unfold jsmnStep
            rw [if_neg hc1, if_neg hc2, if_neg hc3, if_pos hc4, h1, h3]
          · rw [← h1, ← h2]
            simpa using ha
        · split at h
          · -- colon
            rename_i hc1 hc2 hc3 hc4 hc5
            injection h with h1 h2 h3
            refine ⟨U, ?_, ?_, rfl⟩
            · unfold jsmnStep
              rw [if_neg hc1, if_neg hc2, if_neg hc3, if_neg hc4, if_pos hc5, h1, h3]
            · rw [← h1, ← h2]
              simpa using ha
          · split at h
            · -- comma
              rename_i hc1 hc2 hc3 hc4 hc5 hc6
              obtain ⟨⟨hs1, hs2, hpar⟩, hcap⟩ := hinv
              have hread : p.toksuper ≠ -1 →
                  T.getD p.toksuper.toNat JsmnTok.new = U.getD p.toksuper.toNat JsmnTok.new :=
                fun hne => ha p.toksuper.toNat (by omega)
              unfold jsmnStepComma at h
              split at h
              · rename_i hcond
                injection h with h1 h2 h3
                refine ⟨U, ?_, ?_, rfl⟩
                · unfold jsmnStep jsmnStepComma
                  rw [if_neg hc1, if_neg hc2, if_neg hc3, if_neg hc4, if_neg hc5,
                    if_pos hc6, ← hread hcond.1,
                    if_pos hcond, h1, h3]
                · rw [← h1, ← h2]
                  simpa using ha
              · rename_i hcond
                injection h with h1 h2 h3
                refine ⟨U, ?_, ?_, rfl⟩
                · unfold jsmnStep jsmnStepComma
                  rw [if_neg hc1, if_neg hc2, if_neg hc3, if_neg hc4, if_neg hc5, if_pos hc6]
                  by_cases hne : p.toksuper = -1
                  · rw [if_neg (by simp [hne]), h1, h3]
                  · rw [← hread hne, if_neg hcond, h1, h3]
                · rw [← h1, ← h2]
                  simpa using ha
            · -- primitive
              rename_i hc1 hc2 hc3 hc4 hc5 hc6
              obtain ⟨hlt, hc, e, he, hp, hT⟩ := jsmnStepPrim_next h
              have hroomU : p.toknext < U.length := by rw [hp] at hU; simpa using hU
              refine ⟨if p.toksuper = -1 then
                  fillTokArray U p .JsmnPrimitive (p.pos : Int) (e : Int)
                else bumpTokSize (fillTokArray U p .JsmnPrimitive (p.pos : Int) (e : Int))
                  p.toksuper.toNat, ?_, ?_, ?_⟩
              · unfold jsmnStep
                rw [if_neg hc1, if_neg hc2, if_neg hc3, if_neg hc4, if_neg hc5, if_neg hc6,
                  jsmnStepPrim_eval he hroomU, hp, hc]
              · rw [hp, hT]
                exact fillBump_agree _ _ _ hinv ha hlt hroomU
              · split <;> simp [length_fillTokArray, length_bumpTokSize]

/-- If an iteration allocates a token but the second array has no room left,
the iteration on the second array fails with the no-memory sentinel and
changes nothing. -/
theorem jsmnStep_nomem {js : List Nat} {len : Nat} {p : JsmnParser}
    {T U : List JsmnTok} {count : Nat} {p' T' c'}
    (h : jsmnStep js len p T count = .next p' T' c')
    (hUb : p.toknext ≤ U.length) (hUsmall : U.length < p'.toknext) :
    jsmnStep js len p U count = .ret p U (-1) := by
  have hfull : U.length ≤ p.toknext := by
    rcases (jsmnStep_next_main h).2.1 with h1 | ⟨h1, _⟩ <;> omega
  unfold jsmnStep at h
  split at h
  · rename_i hc1
    unfold jsmnStep
    rw [if_pos hc1, jsmnStepOpen_eval_nomem hfull]
  · split at h
    · -- close does not allocate
      obtain ⟨h1, hc, sw, hw, hp⟩ := jsmnStepClose_next h
      rw [hp] at hUsmall
      simp at hUsmall
      omega
    · split at h
      · rename_i hc1 hc2 hc3
        obtain ⟨hlt, hc, q, hq, hp, hT⟩ := jsmnStepString_next h
        unfold jsmnStep
        rw [if_neg hc1, if_neg hc2, if_pos hc3, jsmnStepString_eval_nomem hq hfull]
      · split at h
        · injection h with h1 h2 h3
          rw [← h1] at hUsmall
          simp at hUsmall
          omega
        · split at h
          · injection h with h1 h2 h3
            rw [← h1] at hUsmall
            simp at hUsmall
            omega
          · split at h
            · have := (jsmnStepComma_next h).2.2.1
              omega
            · rename_i hc1 hc2 hc3 hc4 hc5 hc6
              obtain ⟨hlt, hc, e, he, hp, hT⟩ := jsmnStepPrim_next h
              unfold jsmnStep
              rw [if_neg hc1, if_neg hc2, if_neg hc3, if_neg hc4, if_neg hc5, if_neg hc6,
                jsmnStepPrim_eval_nomem he hfull]

/-! ### Facts about the main loop -/

theorem hasOpenTok_agree {k : Nat} {T U : List JsmnTok} (ha : agreeBelow k T U) :
    hasOpenTok T k = hasOpenTok U k := by
  unfold hasOpenTok
  rw [Bool.eq_iff_iff, List.any_eq_true, List.any_eq_true]
  constructor <;> rintro ⟨i, hi, hpred⟩ <;> refine ⟨i, hi, ?_⟩
  · rw [← ha i (List.mem_range.mp hi)]
    exact hpred
  · rw [ha i (List.mem_range.mp hi)]
    exact hpred

/-- More fuel never changes a run that returned. -/
theorem parseLoopF_mono {js : List Nat} {len : Nat} :
    ∀ fuel fuel2 p T count out, fuel ≤ fuel2 →
      parseLoopF js len fuel p T count = some out →
      parseLoopF js len fuel2 p T count = some out := by
  intro fuel
  induction fuel with
  | zero => intro fuel2 p T count out _ h; exact absurd h (by simp [parseLoopF])
  | succ fuel ih =>
    intro fuel2 p T count out hle h
    obtain ⟨fuel2, rfl⟩ : ∃ g, fuel2 = g + 1 := ⟨fuel2 - 1, by omega⟩
    unfold parseLoopF at h ⊢
    by_cases hcond : p.pos < len ∧ js.getD p.pos 0 ≠ 0
    · rw [if_pos hcond] at h ⊢
      cases hstep : jsmnStep js len p T count with
      | next p' T' c' =>
        rw [hstep] at h
        exact ih fuel2 p' T' c' out (by omega) h
      | ret p' T' r =>
        rw [hstep] at h
        exact h
      | diverge =>
        rw [hstep] at h
        simp at h
    · rw [if_neg hcond] at h ⊢
      exact h

/-- Any returned sentinel of the loop is nonnegative or one of -1, -2, -3. -/
theorem parseLoopF_range {js : List Nat} {len : Nat} :
    ∀ fuel p T count p1 T1 r,
      parseLoopF js len fuel p T count = some (p1, T1, r) →
      0 ≤ r ∨ r = -1 ∨ r = -2 ∨ r = -3 := by
  intro fuel
  induction fuel with
  | zero => intro p T count p1 T1 r h; exact absurd h (by simp [parseLoopF])
  | succ fuel ih =>
    intro p T count p1 T1 r h
    unfold parseLoopF at h
    split at h
    · split at h
      · exact ih _ _ _ _ _ _ h
      · rename_i p' T' r' hstep
        injection h with h1
        simp only [Prod.mk.injEq] at h1
        obtain ⟨_, _, hr⟩ := jsmnStep_ret_frame hstep
        right
        omega
      · exact absurd h (by simp)
    · split at h
      · injection h with h1
        simp only [Prod.mk.injEq] at h1
        right
        omega
      · injection h with h1
        simp only [Prod.mk.injEq] at h1
        left
        omega

/-- The next-token-index never decreases along a run, the array length is
preserved, the loop invariant is preserved, and with the count seeded from
the next-token-index a successful run returns the final next-token-index. -/
theorem parseLoopF_main {js : List Nat} {len : Nat} :
    ∀ fuel p T count p1 T1 r,
      parseLoopF js len fuel p T count = some (p1, T1, r) →
      p.toknext ≤ p1.toknext ∧ T1.length = T.length ∧
      (scanInv p T → scanInv p1 T1) ∧
      (count = p.toknext → 0 ≤ r → r = (p1.toknext : Int)) := by
  intro fuel
  induction fuel with
  | zero => intro p T count p1 T1 r h; exact absurd h (by simp [parseLoopF])
  | succ fuel ih =>
    intro p T count p1 T1 r h
    unfold parseLoopF at h
    split at h
    · split at h
      · rename_i p' T' c' hstep
        obtain ⟨hlen, htn, hcnt⟩ := jsmnStep_next_main hstep
        obtain ⟨ih1, ih2, ih3, ih4⟩ := ih _ _ _ _ _ _ h
        refine ⟨by omega, by omega, fun hi => ih3 (jsmnStep_inv hi hstep), fun hc hr => ?_⟩
        exact ih4 (by rw [hcnt hc]) hr
      · rename_i p' T' r' hstep
        injection h with h1
        simp only [Prod.mk.injEq] at h1
        obtain ⟨hp, hT, hr⟩ := jsmnStep_ret_frame hstep
        obtain ⟨e1, e2, e3⟩ := h1
        subst e1; subst e2; subst e3
        subst hp; subst hT
        exact ⟨le_refl _, rfl, fun hi => hi, fun _ hr0 => by omega⟩
      · exact absurd h (by simp)
    · split at h
      · injection h with h1
        simp only [Prod.mk.injEq] at h1
        obtain ⟨e1, e2, e3⟩ := h1
        subst e1; subst e2
        exact ⟨le_refl _, rfl, fun hi => hi, fun _ hr0 => by omega⟩
      · injection h with h1
        simp only [Prod.mk.injEq] at h1
        obtain ⟨e1, e2, e3⟩ := h1
        subst e1; subst e2
        exact ⟨le_refl _, rfl, fun hi => hi, fun hc _ => by omega⟩

/-- Simulation: a successful run is reproduced, value for value, on any array
that agrees on the committed slots and whose capacity covers the final
next-token-index. -/
theorem parseLoopF_sim {js : List Nat} {len : Nat} :
    ∀ fuel p T U count p1 T1 r,
      scanInv p T → agreeBelow p.toknext T U →
      parseLoopF js len fuel p T count = some (p1, T1, r) → 0 ≤ r →
      p1.toknext ≤ U.length →
      ∃ U1, parseLoopF js len fuel p U count = some (p1, U1, r) ∧
        agreeBelow p1.toknext T1 U1 ∧ U1.length = U.length := by
  intro fuel
  induction fuel with
  | zero =>
    intro p T U count p1 T1 r _ _ h
    exact absurd h (by simp [parseLoopF])
  | succ fuel ih =>
    intro p T U count p1 T1 r hinv ha h hr hU
    unfold parseLoopF at h ⊢
    by_cases hcond : p.pos < len ∧ js.getD p.pos 0 ≠ 0
    · rw [if_pos hcond] at h ⊢
      cases hstep : jsmnStep js len p T count with
      | next p' T' c' =>
        rw [hstep] at h
        have hmono := (parseLoopF_main _ _ _ _ _ _ _ h).1
        obtain ⟨U', hstepU, ha', hlenU⟩ := jsmnStep_sim hinv ha hstep (by omega)
        obtain ⟨U1, hU1, haf, hlen1⟩ :=
          ih p' T' U' c' p1 T1 r (jsmnStep_inv hinv hstep) ha' h hr (by omega)
        refine ⟨U1, ?_, haf, by rw [hlen1, hlenU]⟩
        rw [hstepU]
        exact hU1
      | ret p' T' r' =>
        rw [hstep] at h
        injection h with h1
        simp only [Prod.mk.injEq] at h1
        obtain ⟨-, -, hrneg⟩ := jsmnStep_ret_frame hstep
        omega
      | diverge =>
        rw [hstep] at h
        simp at h
    · rw [if_neg hcond] at h ⊢
      by_cases hopen : hasOpenTok T p.toknext
      · rw [if_pos hopen] at h
        injection h with h1
        simp only [Prod.mk.injEq] at h1
        omega
      · rw [if_neg hopen] at h
        injection h with h1
        simp only [Prod.mk.injEq] at h1
        obtain ⟨e1, e2, e3⟩ := h1
        subst e1; subst e2; subst e3
        refine ⟨U, ?_, ha, rfl⟩
        rw [if_neg (by rw [← hasOpenTok_agree ha]; exact hopen)]

/-- A call that failed with the no-memory sentinel is idempotent: re-invoking
on the returned state with the same array fails identically and changes
nothing. -/
theorem parseLoopF_nomem_idem {js : List Nat} {len : Nat} :
    ∀ fuel p T count p2 T2,
      parseLoopF js len fuel p T count = some (p2, T2, -1) →
      count = p.toknext →
      ∀ fuel2, 1 ≤ fuel2 →
        parseLoopF js len fuel2 p2 T2 p2.toknext = some (p2, T2, -1) := by
  intro fuel
  induction fuel with
  | zero =>
    intro p T count p2 T2 h
    exact absurd h (by simp [parseLoopF])
  | succ fuel ih =>
    intro p T count p2 T2 h hcnt fuel2 hf2
    unfold parseLoopF at h
    by_cases hcond : p.pos < len ∧ js.getD p.pos 0 ≠ 0
    · rw [if_pos hcond] at h
      cases hstep : jsmnStep js len p T count with
      | next p' T' c' =>
        rw [hstep] at h
        have hc' := (jsmnStep_next_main hstep).2.2 hcnt
        exact ih p' T' c' p2 T2 h hc' fuel2 hf2
      | ret p' T' r' =>
        rw [hstep] at h
        injection h with h1
        simp only [Prod.mk.injEq] at h1
        obtain ⟨hp, hT, hrneg⟩ := jsmnStep_ret_frame hstep
        obtain ⟨e1, e2, e3⟩ := h1
        subst e1; subst e2
        subst hp; subst hT
        obtain ⟨g, rfl⟩ : ∃ g, fuel2 = g + 1 := ⟨fuel2 - 1, by omega⟩
        unfold parseLoopF
        rw [if_pos hcond]
        rw [hcnt] at hstep
        rw [hstep, e3]
      | diverge =>
        rw [hstep] at h
        simp at h
    · rw [if_neg hcond] at h
      by_cases hopen : hasOpenTok T p.toknext
      · rw [if_pos hopen] at h
        injection h with h1
        simp only [Prod.mk.injEq] at h1
        omega
      · rw [if_neg hopen] at h
        injection h with h1
        simp only [Prod.mk.injEq] at h1
        omega

/-- A successful run ends with every committed token closed. -/
theorem parseLoopF_closed {js : List Nat} {len : Nat} :
    ∀ fuel p T count p1 T1 r,
      parseLoopF js len fuel p T count = some (p1, T1, r) → 0 ≤ r →
      hasOpenTok T1 p1.toknext = false := by
  intro fuel
  induction fuel with
  | zero =>
    intro p T count p1 T1 r h
    exact absurd h (by simp [parseLoopF])
  | succ fuel ih =>
    intro p T count p1 T1 r h hr
    unfold parseLoopF at h
    by_cases hcond : p.pos < len ∧ js.getD p.pos 0 ≠ 0
    · rw [if_pos hcond] at h
      cases hstep : jsmnStep js len p T count with
      | next p' T' c' =>
        rw [hstep] at h
        exact ih p' T' c' p1 T1 r h hr
      | ret p' T' r' =>
        rw [hstep] at h
        injection h with h1
        simp only [Prod.mk.injEq] at h1
        obtain ⟨-, -, hrneg⟩ := jsmnStep_ret_frame hstep
        omega
      | diverge =>
        rw [hstep] at h
        simp at h
    · rw [if_neg hcond] at h
      by_cases hopen : hasOpenTok T p.toknext
      · rw [if_pos hopen] at h
        injection h with h1
        simp only [Prod.mk.injEq] at h1
        omega
      · rw [if_neg hopen] at h
        injection h with h1
        simp only [Prod.mk.injEq] at h1
        obtain ⟨e1, e2, e3⟩ := h1
        subst e1; subst e2
        simpa using hopen

/-- Truncation: when a run succeeds on one array but a second agreeing array
is too small for the final token count, the run on the second array stops
with the no-memory sentinel exactly when the second array is full, at a loop
configuration from which the successful run still completes unchanged. -/
theorem parseLoopF_trunc {js : List Nat} {len : Nat} :
    ∀ fuel p T U p1 T1 r,
      scanInv p T → agreeBelow p.toknext T U →
      parseLoopF js len fuel p T p.toknext = some (p1, T1, r) → 0 ≤ r →
      p.toknext ≤ U.length → U.length < p1.toknext →
      ∃ p2 U2 T2 fuel2,
        parseLoopF js len fuel p U p.toknext = some (p2, U2, -1) ∧
        p2.toknext = U.length ∧ fuel2 ≤ fuel ∧
        scanInv p2 T2 ∧ agreeBelow p2.toknext T2 U2 ∧
        U2.length = U.length ∧ T2.length = T.length ∧
        parseLoopF js len fuel2 p2 T2 p2.toknext = some (p1, T1, r) := by
  intro fuel
  induction fuel with
  | zero =>
    intro p T U p1 T1 r _ _ h
    exact absurd h (by simp [parseLoopF])
  | succ fuel ih =>
    intro p T U p1 T1 r hinv ha h hr hUb hUsmall
    unfold parseLoopF at h
    by_cases hcond : p.pos < len ∧ js.getD p.pos 0 ≠ 0
    · rw [if_pos hcond] at h
      cases hstep : jsmnStep js len p T p.toknext with
      | next p' T' c' =>
        rw [hstep] at h
        have hcnt' : c' = p'.toknext := (jsmnStep_next_main hstep).2.2 rfl
        subst hcnt'
        by_cases hroom : p'.toknext ≤ U.length
        · obtain ⟨U', hstepU, ha', hlenU⟩ := jsmnStep_sim hinv ha hstep hroom
          obtain ⟨p2, U2, T2, fuel2, hrunU, htn2, hf2, hinv2, ha2, hlU2, hlT2, hres⟩ :=
            ih p' T' U' p1 T1 r (jsmnStep_inv hinv hstep) ha' h hr
              (by omega) (by rw [hlenU]; exact hUsmall)
          refine ⟨p2, U2, T2, fuel2, ?_, by rw [htn2, hlenU], by omega, hinv2, ha2,
            by rw [hlU2, hlenU], by rw [hlT2, (jsmnStep_next_main hstep).1], hres⟩
          unfold parseLoopF
          rw [if_pos hcond, hstepU]
          exact hrunU
        · have hnomem := jsmnStep_nomem hstep hUb (by omega)
          have htn := (jsmnStep_next_main hstep).2.1
          refine ⟨p, U, T, fuel + 1, ?_, by omega, le_refl _, hinv, ha, rfl, rfl, ?_⟩
          · unfold parseLoopF
            rw [if_pos hcond, hnomem]
          · unfold parseLoopF
            rw [if_pos hcond, hstep]
            exact h
      | ret p' T' r' =>
        rw [hstep] at h
        injection h with h1
        simp only [Prod.mk.injEq] at h1
        obtain ⟨-, -, hrneg⟩ := jsmnStep_ret_frame hstep
        omega
      | diverge =>
        rw [hstep] at h
        simp at h
    · rw [if_neg hcond] at h
      by_cases hopen : hasOpenTok T p.toknext
      · rw [if_pos hopen] at h
        injection h with h1
        simp only [Prod.mk.injEq] at h1
        omega
      · rw [if_neg hopen] at h
        injection h with h1
        simp only [Prod.mk.injEq] at h1
        obtain ⟨e1, e2, e3⟩ := h1
        subst e1
        omega

/-- The next-token-index never exceeds the array capacity if it did not at
entry. -/
theorem parseLoopF_cap {js : List Nat} {len : Nat} :
    ∀ fuel p T count p1 T1 r,
      parseLoopF js len fuel p T count = some (p1, T1, r) →
      p.toknext ≤ T.length → p1.toknext ≤ T.length := by
  intro fuel
  induction fuel with
  | zero =>
    intro p T count p1 T1 r h
    exact absurd h (by simp [parseLoopF])
  | succ fuel ih =>
    intro p T count p1 T1 r h hcap
    unfold parseLoopF at h
    by_cases hcond : p.pos < len ∧ js.getD p.pos 0 ≠ 0
    · rw [if_pos hcond] at h
      cases hstep : jsmnStep js len p T count with
      | next p' T' c' =>
        rw [hstep] at h
        obtain ⟨hlen, htn, _⟩ := jsmnStep_next_main hstep
        have := ih p' T' c' p1 T1 r h (by omega)
        omega
      | ret p' T' r' =>
        rw [hstep] at h
        injection h with h1
        simp only [Prod.mk.injEq] at h1
        obtain ⟨hp, hT, -⟩ := jsmnStep_ret_frame hstep
        obtain ⟨e1, -, -⟩ := h1
        subst e1
        subst hp
        exact hcap
      | diverge =>
        rw [hstep] at h
        simp at h
    · rw [if_neg hcond] at h
      by_cases hopen : hasOpenTok T p.toknext
      · rw [if_pos hopen] at h
        injection h with h1
        simp only [Prod.mk.injEq] at h1
        obtain ⟨e1, -, -⟩ := h1
        subst e1
        exact hcap
      · rw [if_neg hopen] at h
        injection h with h1
        simp only [Prod.mk.injEq] at h1
        obtain ⟨e1, -, -⟩ := h1
        subst e1
        exact hcap

/-! ### Bridging the wrapper and the engine -/

theorem jsmn_parse_some {p : JsmnParser} {js : List Nat} {T : List JsmnTok}
    {p1 T1 res} (h : jsmn_parse p js T = some (p1, T1, res)) :
    ∃ r, jsmn_parse_c p js T = some (p1, T1, r) ∧ wrapperMap r = some res := by
  unfold jsmn_parse at h
  split at h
  · exact absurd h (by simp)
  · rename_i p' T' r hc
    split at h
    · exact absurd h (by simp)
    · rename_i res' hm
      injection h with h1
      simp only [Prod.mk.injEq] at h1
      obtain ⟨e1, e2, e3⟩ := h1
      subst e1; subst e2; subst e3
      exact ⟨r, hc, hm⟩

theorem jsmn_parse_of_c {p : JsmnParser} {js : List Nat} {T : List JsmnTok}
    {p1 T1 r res} (hc : jsmn_parse_c p js T = some (p1, T1, r))
    (hm : wrapperMap r = some res) :
    jsmn_parse p js T = some (p1, T1, res) := by
  unfold jsmn_parse
  rw [hc]
  dsimp only
  rw [hm]

theorem wrapperMap_ok {r : Int} (hr : 0 ≤ r) : wrapperMap r = some (.ok r.toNat) := by
  unfold wrapperMap
  rw [if_neg (by omega)]

theorem wrapperMap_nomem : wrapperMap (-1) = some (.error .JsmErrorNoMem) := by
  decide

theorem wrapperMap_inval : wrapperMap (-2) = some (.error .JsmErrorInval) := by
  decide

theorem wrapperMap_part : wrapperMap (-3) = some (.error .JsmErrorPart) := by
  decide

theorem wrapperMap_ok_inv {r : Int} {n : Nat} (h : wrapperMap r = some (.ok n)) :
    r = (n : Int) := by
  unfold wrapperMap at h
  split at h
  · split at h
    · exact absurd h (by simp)
    · split at h
      · exact absurd h (by simp)
      · split at h
        · exact absurd h (by simp)
        · exact absurd h (by simp)
  · rename_i hr
    injection h with h1
    injection h1 with h2
    omega

theorem wrapperMap_nomem_inv {r : Int}
    (h : wrapperMap r = some (.error .JsmErrorNoMem)) : r = -1 := by
  unfold wrapperMap at h
  split at h
  · split at h
    · assumption
    · split at h
      · exact absurd h (by simp)
      · split at h
        · exact absurd h (by simp)
        · exact absurd h (by simp)
  · exact absurd h (by simp)

/-- The fresh parser satisfies the loop invariant on any array. -/
theorem scanInv_new (T : List JsmnTok) : scanInv JsmnParser.new T := by
  refine ⟨⟨by decide, by decide, fun i hi => ?_⟩, by simp [JsmnParser.new, jsmn_init]⟩
  exact absurd hi (by simp [JsmnParser.new, jsmn_init])

theorem agreeBelow_new (T U : List JsmnTok) : agreeBelow JsmnParser.new.toknext T U :=
  fun i hi => absurd hi (by simp [JsmnParser.new, jsmn_init])

/-- Claim C2, amended: the grow-and-retry protocol works when the second call
is given an array that still holds the committed tokens.  For every document
whose direct scan with a fresh parser succeeds with n tokens and every
capacity below n, the first call returns the no-memory error after committing
exactly the capacity of the small array; re-invoking with the persisted state
and any array of capacity at least n whose first slots hold the committed
tokens completes with Ok n, the same final parser state, and token records
identical to the direct scan on all n slots (in particular on the slots from
the old capacity up to n). -/
theorem C2_grow_and_retry (js : List Nat) (T U : List JsmnTok)
    (p1 : JsmnParser) (T1 : List JsmnTok) (n : Nat)
    (hok : jsmn_parse JsmnParser.new js T = some (p1, T1, .ok n))
    (hsmall : U.length < n) :
    ∃ p2 U2, jsmn_parse JsmnParser.new js U = some (p2, U2, .error .JsmErrorNoMem) ∧
      p2.toknext = U.length ∧ U2.length = U.length ∧
      ∀ W : List JsmnTok, n ≤ W.length →
        (∀ i, i < U.length → W.getD i JsmnTok.new = U2.getD i JsmnTok.new) →
        ∃ W1, jsmn_parse p2 js W = some (p1, W1, .ok n) ∧
          ∀ i, i < n → W1.getD i JsmnTok.new = T1.getD i JsmnTok.new := by
  obtain ⟨r, hc, hm⟩ := jsmn_parse_some hok
  have hrn : r = (n : Int) := wrapperMap_ok_inv hm
  subst hrn
  unfold jsmn_parse_c at hc
  have hr0 : (0 : Int) ≤ (n : Int) := by omega
  have hcount : (n : Int) = (p1.toknext : Int) :=
    (parseLoopF_main _ _ _ _ _ _ _ hc).2.2.2 rfl hr0
  have hn1 : n = p1.toknext := by omega
  obtain ⟨p2, U2, T2, fuel2, hrunU, htn2, hf2, hinv2, ha2, hlU2, hlT2, hres⟩ :=
    parseLoopF_trunc _ JsmnParser.new T U p1 T1 (n : Int) (scanInv_new T)
      (agreeBelow_new T U) hc hr0
      (by simp [JsmnParser.new, jsmn_init]) (by omega)
  refine ⟨p2, U2, jsmn_parse_of_c (by unfold jsmn_parse_c; exact hrunU) wrapperMap_nomem,
    htn2, hlU2, ?_⟩
  intro W hWlen hWagree
  have haUW : agreeBelow p2.toknext U2 W := by
    intro i hi
    exact (hWagree i (by omega)).symm
  have haTW : agreeBelow p2.toknext T2 W := agreeBelow_trans ha2 haUW
  obtain ⟨W1, hW1run, haW, hlW1⟩ :=
    parseLoopF_sim fuel2 p2 T2 W p2.toknext p1 T1 (n : Int) hinv2 haTW hres hr0
      (by omega)
  have hW1big := parseLoopF_mono fuel2 (js.length + 1) p2 W p2.toknext _ hf2 hW1run
  have hmap : wrapperMap (n : Int) = some (.ok n) := by
    rw [wrapperMap_ok hr0]
    simp
  refine ⟨W1, jsmn_parse_of_c (by unfold jsmn_parse_c; exact hW1big) hmap, ?_⟩
  intro i hi
  exact (haW i (by omega)).symm

/-- Witness for claim C2: the amended grow-and-retry protocol at the document
of an array of two empty objects, first capacity 2, retry capacity 3. -/
theorem C2_grow_and_retry_witness :
    ∃ p2 U2,
      jsmn_parse JsmnParser.new [91, 123, 125, 44, 123, 125, 93]
          (List.replicate 2 JsmnTok.default) =
        some (p2, U2, .error .JsmErrorNoMem) ∧
      p2.toknext = (List.replicate 2 JsmnTok.default).length ∧
      U2.length = (List.replicate 2 JsmnTok.default).length ∧
      ∀ W : List JsmnTok, 3 ≤ W.length →
        (∀ i, i < (List.replicate 2 JsmnTok.default).length →
          W.getD i JsmnTok.new = U2.getD i JsmnTok.new) →
        ∃ W1, jsmn_parse p2 [91, 123, 125, 44, 123, 125, 93] W =
            some ({ pos := 7, toknext := 3, toksuper := -1 }, W1, .ok 3) ∧
          ∀ i, i < 3 → W1.getD i JsmnTok.new =
            ([{ typ := .JsmnArray, start := 0, «end» := 7, size := 2, parent := -1 },
              { typ := .JsmnObject, start := 1, «end» := 3, size := 0, parent := 0 },
              { typ := .JsmnObject, start := 4, «end» := 6, size := 0, parent := 0 }] :
              List JsmnTok).getD i JsmnTok.new :=
  C2_grow_and_retry [91, 123, 125, 44, 123, 125, 93]
    (List.replicate 3 JsmnTok.default) (List.replicate 2 JsmnTok.default)
    { pos := 7, toknext := 3, toksuper := -1 }
    [{ typ := .JsmnArray, start := 0, «end» := 7, size := 2, parent := -1 },
     { typ := .JsmnObject, start := 1, «end» := 3, size := 0, parent := 0 },
     { typ := .JsmnObject, start := 4, «end» := 6, size := 0, parent := 0 }]
    3 (by decide) (by decide)

/-- Claim C3, amended: a call that stops with the no-memory error is
idempotent when retried with the same state and the same (still full) array:
the retry returns the no-memory error again and leaves the parser state and
every token slot byte-for-byte unchanged. -/
theorem C3_nomem_retry_idem (p : JsmnParser) (js : List Nat) (T : List JsmnTok)
    (p2 : JsmnParser) (T2 : List JsmnTok)
    (h : jsmn_parse p js T = some (p2, T2, .error .JsmErrorNoMem)) :
    jsmn_parse p2 js T2 = some (p2, T2, .error .JsmErrorNoMem) := by
  obtain ⟨r, hc, hm⟩ := jsmn_parse_some h
  have hr1 : r = -1 := wrapperMap_nomem_inv hm
  subst hr1
  unfold jsmn_parse_c at hc
  have hidem := parseLoopF_nomem_idem _ p T p.toknext p2 T2 hc rfl (js.length + 1)
    (by omega)
  exact jsmn_parse_of_c (by unfold jsmn_parse_c; exact hidem) wrapperMap_nomem

/-- Witness for claim C3: idempotent retry on the array-of-two-primitives
document with capacity 1. -/
theorem C3_nomem_retry_idem_witness :
    jsmn_parse { pos := 1, toknext := 1, toksuper := 0 } [91, 48, 44, 49, 93]
        [{ typ := .JsmnArray, start := 0, «end» := -1, size := 0, parent := -1 }] =
      some ({ pos := 1, toknext := 1, toksuper := 0 },
        [{ typ := .JsmnArray, start := 0, «end» := -1, size := 0, parent := -1 }],
        .error .JsmErrorNoMem) :=
  C3_nomem_retry_idem JsmnParser.new [91, 48, 44, 49, 93]
    (List.replicate 1 JsmnTok.default)
    { pos := 1, toknext := 1, toksuper := 0 }
    [{ typ := .JsmnArray, start := 0, «end» := -1, size := 0, parent := -1 }]
    (by decide)

/-- Claim C4: whenever the engine returns, its result is a nonnegative count
or one of the sentinels -1, -2, -3, and the wrapper translates these into
Ok count, no-memory, invalid-character and incomplete respectively; the
unreachable branch of the wrapper is never taken. -/
theorem C4_sentinel_mapping (p : JsmnParser) (js : List Nat) (T : List JsmnTok)
    (p' : JsmnParser) (T' : List JsmnTok) (r : Int)
    (hc : jsmn_parse_c p js T = some (p', T', r)) :
    wrapperMap r ≠ none ∧
    ((0 ≤ r ∧ jsmn_parse p js T = some (p', T', .ok r.toNat)) ∨
     (r = -1 ∧ jsmn_parse p js T = some (p', T', .error .JsmErrorNoMem)) ∨
     (r = -2 ∧ jsmn_parse p js T = some (p', T', .error .JsmErrorInval)) ∨
     (r = -3 ∧ jsmn_parse p js T = some (p', T', .error .JsmErrorPart))) := by
  have hc' := hc
  unfold jsmn_parse_c at hc'
  rcases parseLoopF_range _ _ _ _ _ _ _ hc' with hr | hr | hr | hr
  · exact ⟨by rw [wrapperMap_ok hr]; simp,
      Or.inl ⟨hr, jsmn_parse_of_c hc (wrapperMap_ok hr)⟩⟩
  · subst hr
    exact ⟨by rw [wrapperMap_nomem]; simp,
      Or.inr (Or.inl ⟨rfl, jsmn_parse_of_c hc wrapperMap_nomem⟩)⟩
  · subst hr
    exact ⟨by rw [wrapperMap_inval]; simp,
      Or.inr (Or.inr (Or.inl ⟨rfl, jsmn_parse_of_c hc wrapperMap_inval⟩))⟩
  · subst hr
    exact ⟨by rw [wrapperMap_part]; simp,
      Or.inr (Or.inr (Or.inr ⟨rfl, jsmn_parse_of_c hc wrapperMap_part⟩))⟩

/-- Witness for claim C4: the sentinel translation on the empty-object
document with capacity 1. -/
theorem C4_sentinel_mapping_witness :
    wrapperMap 1 ≠ none ∧
    ((0 ≤ (1 : Int) ∧ jsmn_parse JsmnParser.new [123, 125] (List.replicate 1 JsmnTok.default) =
        some ({ pos := 2, toknext := 1, toksuper := -1 },
          [{ typ := .JsmnObject, start := 0, «end» := 2, size := 0, parent := -1 }],
          .ok (1 : Int).toNat)) ∨
     ((1 : Int) = -1 ∧ jsmn_parse JsmnParser.new [123, 125] (List.replicate 1 JsmnTok.default) =
        some ({ pos := 2, toknext := 1, toksuper := -1 },
          [{ typ := .JsmnObject, start := 0, «end» := 2, size := 0, parent := -1 }],
          .error .JsmErrorNoMem)) ∨
     ((1 : Int) = -2 ∧ jsmn_parse JsmnParser.new [123, 125] (List.replicate 1 JsmnTok.default) =
        some ({ pos := 2, toknext := 1, toksuper := -1 },
          [{ typ := .JsmnObject, start := 0, «end» := 2, size := 0, parent := -1 }],
          .error .JsmErrorInval)) ∨
     ((1 : Int) = -3 ∧ jsmn_parse JsmnParser.new [123, 125] (List.replicate 1 JsmnTok.default) =
        some ({ pos := 2, toknext := 1, toksuper := -1 },
          [{ typ := .JsmnObject, start := 0, «end» := 2, size := 0, parent := -1 }],
          .error .JsmErrorPart))) :=
  C4_sentinel_mapping JsmnParser.new [123, 125] (List.replicate 1 JsmnTok.default)
    { pos := 2, toknext := 1, toksuper := -1 }
    [{ typ := .JsmnObject, start := 0, «end» := 2, size := 0, parent := -1 }]
    1 (by decide)

theorem hasOpenTok_of_mem {T : List JsmnTok} {k i : Nat} (hi : i < k)
    (hs : (T.getD i JsmnTok.new).start ≠ -1)
    (he : (T.getD i JsmnTok.new).«end» = -1) : hasOpenTok T k = true := by
  unfold hasOpenTok
  rw [List.any_eq_true]
  refine ⟨i, List.mem_range.mpr hi, ?_⟩
  rw [Bool.and_eq_true, bne_iff_ne, beq_iff_eq]
  exact ⟨hs, he⟩

/-- Claim C6, amended: a buffer that ends while an object or array is still
open yields the incomplete error provided it contains no syntax violation and
capacity was not exhausted: whenever a call from a fresh parser returns,
does not fail with invalid-character or no-memory, and leaves a committed
token open (start set, end never written), the result is the incomplete
error, never Ok. -/
theorem C6_truncated_container_incomplete (js : List Nat) (T : List JsmnTok)
    (p' : JsmnParser) (T' : List JsmnTok) (res : Except JsmnErr Nat)
    (h : jsmn_parse JsmnParser.new js T = some (p', T', res))
    (hni : res ≠ .error .JsmErrorInval) (hnm : res ≠ .error .JsmErrorNoMem)
    (hopen : ∃ i, i < p'.toknext ∧ (T'.getD i JsmnTok.new).start ≠ -1 ∧
      (T'.getD i JsmnTok.new).«end» = -1) :
    res = .error .JsmErrorPart := by
  obtain ⟨r, hc, hm⟩ := jsmn_parse_some h
  unfold jsmn_parse_c at hc
  rcases parseLoopF_range _ _ _ _ _ _ _ hc with hr | hr | hr | hr
  · have hclosed := parseLoopF_closed _ _ _ _ _ _ _ hc hr
    obtain ⟨i, hi, hs, he⟩ := hopen
    rw [hasOpenTok_of_mem hi hs he] at hclosed
    exact absurd hclosed (by simp)
  · subst hr
    rw [wrapperMap_nomem] at hm
    injection hm with hm1
    exact absurd hm1.symm hnm
  · subst hr
    rw [wrapperMap_inval] at hm
    injection hm with hm1
    exact absurd hm1.symm hni
  · subst hr
    rw [wrapperMap_part] at hm
    injection hm with hm1
    exact hm1.symm

/-- Witness for claim C6: the truncated array document of bytes of an opening
bracket, the digit one, a comma and the digit two is classified incomplete. -/
theorem C6_truncated_container_incomplete_witness :
    (Except.error JsmnErr.JsmErrorPart : Except JsmnErr Nat) = .error .JsmErrorPart :=
  C6_truncated_container_incomplete [91, 49, 44, 50] (List.replicate 5 JsmnTok.default)
    { pos := 4, toknext := 3, toksuper := 0 }
    ([{ typ := .JsmnArray, start := 0, «end» := -1, size := 2, parent := -1 },
      { typ := .JsmnPrimitive, start := 1, «end» := 2, size := 0, parent := 0 },
      { typ := .JsmnPrimitive, start := 3, «end» := 4, size := 0, parent := 0 }] ++
      List.replicate 2 JsmnTok.default)
    (.error .JsmErrorPart)
    (by decide) (by decide) (by decide)
    ⟨0, by decide, by decide, by decide⟩

/-- Claim C7: the engine never overruns the caller-provided token array: on
any returning call whose entry next-token-index is within the capacity, the
resulting next-token-index is still at most the capacity, and the array
length is unchanged. -/
theorem C7_no_overrun (p : JsmnParser) (js : List Nat) (T : List JsmnTok)
    (p' : JsmnParser) (T' : List JsmnTok) (res : Except JsmnErr Nat)
    (h : jsmn_parse p js T = some (p', T', res))
    (hcap : p.toknext ≤ T.length) :
    p'.toknext ≤ T.length ∧ T'.length = T.length := by
  obtain ⟨r, hc, hm⟩ := jsmn_parse_some h
  unfold jsmn_parse_c at hc
  exact ⟨parseLoopF_cap _ _ _ _ _ _ _ hc hcap,
    (parseLoopF_main _ _ _ _ _ _ _ hc).2.1⟩

/-- Witness for claim C7: capacity is respected on the empty-object document
with capacity 1. -/
theorem C7_no_overrun_witness :
    ({ pos := 2, toknext := 1, toksuper := -1 } : JsmnParser).toknext ≤
      (List.replicate 1 JsmnTok.default).length ∧
    ([{ typ := .JsmnObject, start := 0, «end» := 2, size := 0, parent := -1 }] :
      List JsmnTok).length = (List.replicate 1 JsmnTok.default).length :=
  C7_no_overrun JsmnParser.new [123, 125] (List.replicate 1 JsmnTok.default)
    { pos := 2, toknext := 1, toksuper := -1 }
    [{ typ := .JsmnObject, start := 0, «end» := 2, size := 0, parent := -1 }]
    (.ok 1) (by decide) (by decide)

/-- Claim C8, amended: a zero-length token slice is not a count-only mode.
The wrapper always passes a real array whose capacity is the slice length, so
for every document whose direct scan succeeds with at least one token, the
call with the empty slice fails with the no-memory error (before committing
anything); only a document with zero tokens succeeds on the empty slice. -/
theorem C8_empty_slice_nomem (js : List Nat) (T : List JsmnTok)
    (p1 : JsmnParser) (T1 : List JsmnTok) (n : Nat)
    (hok : jsmn_parse JsmnParser.new js T = some (p1, T1, .ok n)) (hn : 1 ≤ n) :
    ∃ p2, jsmn_parse JsmnParser.new js [] = some (p2, [], .error .JsmErrorNoMem) ∧
      p2.toknext = 0 := by
  obtain ⟨r, hc, hm⟩ := jsmn_parse_some hok
  have hrn : r = (n : Int) := wrapperMap_ok_inv hm
  subst hrn
  unfold jsmn_parse_c at hc
  have hr0 : (0 : Int) ≤ (n : Int) := by omega
  have hcount : (n : Int) = (p1.toknext : Int) :=
    (parseLoopF_main _ _ _ _ _ _ _ hc).2.2.2 rfl hr0
  obtain ⟨p2, U2, T2, fuel2, hrunU, htn2, -, -, -, hlU2, -, -⟩ :=
    parseLoopF_trunc _ JsmnParser.new T [] p1 T1 (n : Int) (scanInv_new T)
      (agreeBelow_new T [])
      hc hr0 (by simp [JsmnParser.new, jsmn_init]) (by simp; omega)
  have hU2 : U2 = [] := List.length_eq_zero.mp (by simpa using hlU2)
  subst hU2
  exact ⟨p2, jsmn_parse_of_c (by unfold jsmn_parse_c; exact hrunU) wrapperMap_nomem,
    by simpa using htn2⟩

/-- Witness for claim C8: the empty-object document fails with no-memory on
the empty slice. -/
theorem C8_empty_slice_nomem_witness :
    ∃ p2, jsmn_parse JsmnParser.new [123, 125] [] =
        some (p2, [], .error .JsmErrorNoMem) ∧ p2.toknext = 0 :=
  C8_empty_slice_nomem [123, 125] (List.replicate 1 JsmnTok.default)
    { pos := 2, toknext := 1, toksuper := -1 }
    [{ typ := .JsmnObject, start := 0, «end» := 2, size := 0, parent := -1 }]
    1 (by decide) (by decide)
